import Mathlib

set_option maxHeartbeats 1000000

/-
Verification of the `ka` version-history engine.

The Rust sources are embedded shallowly:
- `src/diff.rs`     → `Ka.ContentChange`, `Ka.ContentChange.apply`, the
  op-translation loop `Ka.changesFromOps`, and `Ka.ContentChange.diff`.
- `src/history.rs`  → `Ka.FileHistory.get_content`, `Ka.FileHistory.is_file_deleted`.
- `src/actions/*`   → executable models `Ka.update`, `Ka.create`, `Ka.shift`
  over an in-memory repository state.
- `src/files.rs`    → the path-structured enumeration model in namespace `KaEnum`.

Bytes are embedded as `Nat` (only equality of bytes matters to the
algorithms).  Rust `Vec` is `List`, fallible operations return `Option`
(`none` models an `Err` or a panic/abort).
-/

namespace Ka

/-- A byte of file content (Rust `u8`; embedded as `Nat` since only byte
equality matters to the algorithms). -/
abbrev Byte := Nat

/-- Mirrors `ContentChange` in `src/diff.rs`.  The Rust field `at` is named
`a` here (`at` is a Lean keyword). -/
inductive ContentChange where
  | Inserted (a : Nat) (new_content : List Byte)
  | Deleted (a : Nat) (upto : Nat)
deriving DecidableEq, Repr

/-- Mirrors `ContentChange::apply` in `src/diff.rs`: `Deleted{at,upto}`
drains the half-open byte range `[at,upto)` (`buffer.drain(at..upto)`),
`Inserted{at,content}` splices `content` at offset `at`
(`buffer.splice(at..at, content)`). -/
def ContentChange.apply : ContentChange → List Byte → List Byte
  | .Deleted a upto, buffer => buffer.take a ++ buffer.drop upto
  | .Inserted a new_content, buffer => buffer.take a ++ new_content ++ buffer.drop a

/-- Sequential, in-order application of an edit script to a buffer (the
`for change in changes { change.apply(&mut buffer) }` loops in the code). -/
def applyScript (changes : List ContentChange) (buffer : List Byte) : List Byte :=
  changes.foldl (fun b c => c.apply b) buffer

/-- Mirrors `similar::DiffOp`, the op type returned by the external
`similar` crate's `capture_diff_slices_deadline` and consumed by
`ContentChange::diff` in `src/diff.rs`. -/
inductive DiffOp where
  | Equal (old_index new_index len : Nat)
  | Delete (old_index old_len new_index : Nat)
  | Insert (old_index new_index new_len : Nat)
  | Replace (old_index old_len new_index new_len : Nat)
deriving DecidableEq, Repr

/-- Rust slice `&l[a..a+n]`. -/
def sliceL (l : List Byte) (a n : Nat) : List Byte := (l.drop a).take n

/-- Modelled from the spec: the output contract of the external `similar`
crate (not part of this repository), whose `capture_diff_slices_deadline`
produces "a minimal-edit-distance alignment (e.g. Myers) bounded by a fixed
wall-clock deadline; on deadline exceeded, return the best partial alignment
found so far" (spec §4.1).  Whatever the deadline does, the returned ops are
a sequential covering of `old` and `new`: consecutive spans start where the
previous span ended, `Equal` spans carry equal content, and the spans exhaust
both buffers.  `opsValidFrom old new i j ops` says `ops` covers
`old[i..]`/`new[j..]` in this sense. -/
def opsValidFrom (old new : List Byte) : Nat → Nat → List DiffOp → Bool
  | i, j, [] => decide (i = old.length) && decide (j = new.length)
  | i, j, .Equal oi ni len :: rest =>
      decide (oi = i) && decide (ni = j) && decide (i + len ≤ old.length) &&
      decide (j + len ≤ new.length) && decide (sliceL old i len = sliceL new j len) &&
      opsValidFrom old new (i + len) (j + len) rest
  | i, j, .Delete oi ol ni :: rest =>
      decide (oi = i) && decide (ni = j) && decide (i + ol ≤ old.length) &&
      opsValidFrom old new (i + ol) j rest
  | i, j, .Insert oi ni nl :: rest =>
      decide (oi = i) && decide (ni = j) && decide (j + nl ≤ new.length) &&
      opsValidFrom old new i (j + nl) rest
  | i, j, .Replace oi ol ni nl :: rest =>
      decide (oi = i) && decide (ni = j) && decide (i + ol ≤ old.length) &&
      decide (j + nl ≤ new.length) && opsValidFrom old new (i + ol) (j + nl) rest

/-- The covering contract for a full diff of `old` against `new`. -/
def opsValid (old new : List Byte) (ops : List DiffOp) : Bool :=
  opsValidFrom old new 0 0 ops

/-- The loop body of `ContentChange::diff` (`src/diff.rs` lines 18-68),
translating a `DiffOp` list into an edit script while maintaining the running
position `at` (named `a` here) into the buffer being built:
`Delete {old_len}` emits `Deleted{at, at+old_len}` without advancing;
`Insert {new_index, new_len}` emits `Inserted{at, new[new_index..+new_len]}`
and advances by `new_len`; `Replace` emits the deletion then the insertion and
advances by `new_len`; `Equal {len}` advances by `len`. -/
def changesFromOps (new : List Byte) : Nat → List DiffOp → List ContentChange
  | _, [] => []
  | a, .Delete _ old_len _ :: rest =>
      .Deleted a (a + old_len) :: changesFromOps new a rest
  | a, .Insert _ new_index new_len :: rest =>
      .Inserted a (sliceL new new_index new_len) :: changesFromOps new (a + new_len) rest
  | a, .Replace _ old_len new_index new_len :: rest =>
      .Deleted a (a + old_len) :: .Inserted a (sliceL new new_index new_len) ::
        changesFromOps new (a + new_len) rest
  | a, .Equal _ _ len :: rest => changesFromOps new (a + len) rest

/-- Length of the longest common prefix of two buffers (helper for the
modelled alignment engine below). -/
def commonPfxLen : List Byte → List Byte → Nat
  | a :: as, b :: bs => if a = b then commonPfxLen as bs + 1 else 0
  | _, _ => 0

/-- Modelled from the spec: the external `similar` crate's
`capture_diff_slices_deadline(Myers, old, new, deadline)` call in
`ContentChange::diff` — code that is not part of this repository.  The spec
(§4.1) requires "a minimal-edit-distance alignment (e.g. Myers)"; the model
trims the common prefix and aligns the remainders with one edit block, which
satisfies the same output contract (`opsValid`) and, like Myers, produces a
pure `Equal` covering (hence an empty edit script) when the buffers are
equal. -/
def similarOps (old new : List Byte) : List DiffOp :=
  let p := commonPfxLen old new
  let ol := old.length - p
  let nl := new.length - p
  let pre := if 0 < p then [DiffOp.Equal 0 0 p] else []
  let mid :=
    if ol = 0 ∧ nl = 0 then []
    else if ol = 0 then [DiffOp.Insert p p nl]
    else if nl = 0 then [DiffOp.Delete p ol p]
    else [DiffOp.Replace p ol p nl]
  pre ++ mid

/-- Mirrors `ContentChange::diff` in `src/diff.rs`: obtain the alignment ops from the
external differ, then translate them with the running-position loop
(`changesFromOps`). -/
def ContentChange.diff (old new : List Byte) : List ContentChange :=
  changesFromOps new 0 (similarOps old new)

/-- Mirrors `FileChangeVariant` in `src/history.rs`. -/
inductive FileChangeVariant where
  | Updated (changes : List ContentChange)
  | Deleted
deriving DecidableEq, Repr

/-- Mirrors `FileChange` in `src/history.rs`. -/
structure FileChange where
  change_index : Nat
  variant : FileChangeVariant
deriving DecidableEq, Repr

/-- Mirrors `FileHistory` in `src/history.rs`. -/
structure FileHistory where
  changes : List FileChange
deriving DecidableEq, Repr

/-- One step of the replay loop body in `FileHistory::get_content`: an
`Updated` change applies its edit script to the running buffer, a `Deleted`
change drains the whole buffer (`buffer.drain(0..)`). -/
def replayStep (buffer : List Byte) (fc : FileChange) : List Byte :=
  match fc.variant with
  | .Updated updated => applyScript updated buffer
  | .Deleted => []

/-- Mirrors `FileHistory::get_content` (`src/history.rs` lines 105-122): fold
`replayStep` over `changes.iter().take_while(|c| c.change_index <= at_cursor)`
starting from the empty buffer.  Note the Rust code uses `take_while`, not a
filter: iteration stops at the first change whose index exceeds the cursor. -/
def FileHistory.get_content (h : FileHistory) (at_cursor : Nat) : List Byte :=
  (h.changes.takeWhile (fun c => c.change_index ≤ at_cursor)).foldl replayStep []

/-- Mirrors `FileHistory::is_file_deleted` (`src/history.rs` lines 90-103):
the last element of the `take_while` prefix decides deletion; `none` means
not deleted. -/
def FileHistory.is_file_deleted (h : FileHistory) (at_cursor : Nat) : Bool :=
  match (h.changes.takeWhile (fun c => c.change_index ≤ at_cursor)).getLast? with
  | some change =>
      match change.variant with
      | .Deleted => true
      | .Updated _ => false
  | none => false

/-- Mirrors `FileHistory::add_change`: append to the tail. -/
def FileHistory.add_change (h : FileHistory) (change : FileChange) : FileHistory :=
  ⟨h.changes ++ [change]⟩

/-- The spec's wording of reconstruction (§3, §4.2): a left-fold over ALL
changes with `change_index <= C`, in log order.  This definition follows the
spec's words; `FileHistory.get_content` above follows the code.  The two are
compared in the refinement theorems below. -/
def reconstructSpec (h : FileHistory) (c : Nat) : List Byte :=
  (h.changes.filter (fun ch => ch.change_index ≤ c)).foldl replayStep []

/-- The spec's wording of `is_deleted` (§4.2): the last change (by log order)
among ALL changes with `change_index <= cursor` decides.  Follows the spec's
words, for comparison with `FileHistory.is_file_deleted`. -/
def isDeletedSpec (h : FileHistory) (c : Nat) : Bool :=
  match (h.changes.filter (fun ch => ch.change_index ≤ c)).getLast? with
  | some change =>
      match change.variant with
      | .Deleted => true
      | .Updated _ => false
  | none => false

/-- Non-decreasing `change_index` along the log, the §3 invariant. -/
def MonotoneHistory (h : FileHistory) : Prop :=
  h.changes.Pairwise (fun x y => x.change_index ≤ y.change_index)

instance (h : FileHistory) : Decidable (MonotoneHistory h) := by
  unfold MonotoneHistory
  infer_instance

/-- Mirrors `RepositoryChange` in `src/history.rs`.  Paths are plain strings
(working-tree-relative names); timestamps are `u64` values. -/
structure RepositoryChange where
  affected_files : List String
  timestamp : Nat
deriving DecidableEq, Repr

/-- Mirrors `RepositoryHistory` in `src/history.rs`. -/
structure RepositoryHistory where
  cursor : Nat
  changes : List RepositoryChange
deriving DecidableEq, Repr

/-- In-memory repository state for the action models: the working tree and
the metadata store, as finite association lists keyed by working-relative
path (a FileHistory stored at key `p` models the resource `M/files/p`), plus
the index (`M/index`).  Mirrors the state the actions in `src/actions/*`
manipulate through the filesystem. -/
structure SysState where
  working : List (String × List Byte)
  histories : List (String × FileHistory)
  repo : RepositoryHistory
deriving DecidableEq, Repr

/-- Association-list update: replace the value at the first occurrence of the
key, or append a fresh entry at the end (models writing a file at a path). -/
def setA {α : Type} (k : String) (v : α) : List (String × α) → List (String × α)
  | [] => [(k, v)]
  | (k', v') :: rest => if k' = k then (k, v) :: rest else (k', v') :: setA k v rest

/-- Association-list removal (models deleting a file at a path). -/
def removeA {α : Type} (k : String) (l : List (String × α)) : List (String × α) :=
  l.filter (fun e => e.1 ≠ k)

/-- Mirrors `FileState` in `src/files.rs`, specialised to the flat path model:
the classification result for one enumerated path. -/
inductive FileState where
  | Tracked (p : String)
  | Untracked (p : String)
  | Deleted (p : String)
deriving DecidableEq, Repr

def FileState.key : FileState → String
  | .Tracked p => p
  | .Untracked p => p
  | .Deleted p => p

/-- Mirrors `Locations::get_repository_files` (`src/files.rs`) for the flat
state model: walk the working tree, classifying each path `Untracked` or
`Tracked` by presence of a history resource (`FileState::from_working`), then
walk the metadata file store keeping only paths with no working file
(`Deleted`, per `FileState::from_history`; `Tracked` duplicates are
discarded). -/
def enumerate (s : SysState) : List FileState :=
  s.working.map (fun e =>
    if (List.lookup e.1 s.histories).isSome then FileState.Tracked e.1
    else FileState.Untracked e.1)
  ++ s.histories.filterMap (fun e =>
    if (List.lookup e.1 s.working).isSome then none else some (FileState.Deleted e.1))

/-- Mirrors the per-file loop of `update` together with
`get_new_history_for_file` (`src/actions/update.rs`): thread the metadata
store through the enumerated states, appending FileChanges at
`cursor + 1` per the state machine, and collect the affected paths in
processing order.  `none` models an I/O error aborting the batch. -/
def processEntries (w : List (String × List Byte)) (cursor : Nat) :
    List FileState → List (String × FileHistory) →
      Option (List (String × FileHistory) × List String)
  | [], hs => some (hs, [])
  | .Deleted p :: rest, hs =>
      match List.lookup p hs with
      | none => none
      | some h =>
          if h.is_file_deleted cursor then processEntries w cursor rest hs
          else
            match processEntries w cursor rest
                (setA p (h.add_change ⟨cursor + 1, .Deleted⟩) hs) with
            | none => none
            | some (hs', aff) => some (hs', p :: aff)
  | .Untracked p :: rest, hs =>
      match List.lookup p w with
      | none => none
      | some content =>
          match processEntries w cursor rest
              (setA p (FileHistory.add_change ⟨[]⟩
                ⟨cursor + 1, .Updated [.Inserted 0 content]⟩) hs) with
          | none => none
          | some (hs', aff) => some (hs', p :: aff)
  | .Tracked p :: rest, hs =>
      match List.lookup p hs, List.lookup p w with
      | some h, some new_content =>
          let old_content := h.get_content cursor
          let changes := ContentChange.diff old_content new_content
          if changes = [] then processEntries w cursor rest hs
          else
            match processEntries w cursor rest
                (setA p (h.add_change ⟨cursor + 1, .Updated changes⟩) hs) with
            | none => none
            | some (hs', aff) => some (hs', p :: aff)
      | _, _ => none

/-- Mirrors `update` (`src/actions/update.rs` lines 12-45): enumerate the
repository, process every file state, and iff any file was affected append a
`RepositoryChange` and advance the cursor by one before persisting the
index. -/
def update (s : SysState) (timestamp : Nat) : Option SysState :=
  match processEntries s.working s.repo.cursor (enumerate s) s.histories with
  | none => none
  | some (hs', aff) =>
      if aff = [] then some { s with histories := hs' }
      else some { working := s.working, histories := hs',
                  repo := ⟨s.repo.cursor + 1, s.repo.changes ++ [⟨aff, timestamp⟩]⟩ }

/-- Mirrors `create` (`src/actions/create.rs`): destructively reset the
metadata tree (drop all file histories), write an empty `RepositoryHistory`
index, then delegate to `update` for a first snapshot. -/
def create (s : SysState) (timestamp : Nat) : Option SysState :=
  update { working := s.working, histories := [], repo := ⟨0, []⟩ } timestamp

/-- The per-file loop of `shift` (`src/actions/shift.rs` lines 47-81) over
the de-duplicated affected paths.  Returns the final state (or `none` on an
I/O error, e.g. `fs::remove_file` on a missing working file) together with
the working paths actually written or deleted, in processing order.
Classification is `FileState::from_working`: a path with a history resource
is `Tracked` (whether or not a working file exists), otherwise `Untracked`
— and the `Untracked` arm of the match is a no-op (the `Deleted` arm is
unreachable from `from_working`). -/
def processShift : SysState → Nat → List String → Option SysState × List String
  | s, _, [] => (some s, [])
  | s, nc, p :: rest =>
      match List.lookup p s.histories with
      | none => processShift s nc rest
      | some h =>
          if h.is_file_deleted nc then
            match List.lookup p s.working with
            | some _ =>
                let next := processShift { s with working := removeA p s.working } nc rest
                (next.1, p :: next.2)
            | none => (none, [])
          else
            let next := processShift
              { s with working := setA p (h.get_content nc) s.working } nc rest
            (next.1, p :: next.2)

/-- Union of `affected_files` over a change slice, as the `HashSet` fold in
`shift` (first-occurrence order stands in for the hash-set iteration
order; every claim proved about it is order-insensitive). -/
def affectedUnion (changes : List RepositoryChange) : List String :=
  changes.foldl
    (fun acc c => acc ++ c.affected_files.filter (fun p => ¬ acc.contains p)) []

/-- Mirrors `shift` (`src/actions/shift.rs`): persist the new cursor first,
slice the change log over `[min(old,new), max(old,new))`, take the union of
affected files, and materialize each.  Rust's `&changes[lo..hi]` panics when
`hi` exceeds the log length; the model returns `none` (abort) there, after
the cursor write, exactly as the code does. -/
def shift (s : SysState) (new_cursor : Nat) : Option SysState × List String :=
  let old_cursor := s.repo.cursor
  let s' : SysState := { s with repo := ⟨new_cursor, s.repo.changes⟩ }
  let lo := min old_cursor new_cursor
  let hi := max old_cursor new_cursor
  if hi ≤ s.repo.changes.length then
    processShift s' new_cursor (affectedUnion ((s.repo.changes.drop lo).take (hi - lo)))
  else (none, [])

/-- Persisted repository states reachable by sequences of the orchestrating
actions, with arbitrary user edits of the working tree between actions.
`shiftAborted` records that a panicking `shift` has already persisted the new
cursor; working-tree changes a partial shift made before aborting are covered
by `edited`. -/
inductive Reach : SysState → Prop
  | created (w : List (String × List Byte)) (t : Nat) (s' : SysState)
      (h : create ⟨w, [], ⟨0, []⟩⟩ t = some s') : Reach s'
  | recreated (s : SysState) (t : Nat) (s' : SysState)
      (hr : Reach s) (h : create s t = some s') : Reach s'
  | updated (s : SysState) (t : Nat) (s' : SysState)
      (hr : Reach s) (h : update s t = some s') : Reach s'
  | shifted (s : SysState) (n : Nat) (s' : SysState)
      (hr : Reach s) (h : (shift s n).1 = some s') : Reach s'
  | shiftAborted (s : SysState) (n : Nat)
      (hr : Reach s) (h : (shift s n).1 = none) :
      Reach { s with repo := ⟨n, s.repo.changes⟩ }
  | edited (s : SysState) (w' : List (String × List Byte))
      (hr : Reach s) : Reach { s with working := w' }

/-- Like `Reach`, but every `shift` moves the cursor forward (target at or
above the current cursor) — the reachability relation of the amended §3
monotonicity invariant. -/
inductive ReachFwd : SysState → Prop
  | created (w : List (String × List Byte)) (t : Nat) (s' : SysState)
      (h : create ⟨w, [], ⟨0, []⟩⟩ t = some s') : ReachFwd s'
  | recreated (s : SysState) (t : Nat) (s' : SysState)
      (hr : ReachFwd s) (h : create s t = some s') : ReachFwd s'
  | updated (s : SysState) (t : Nat) (s' : SysState)
      (hr : ReachFwd s) (h : update s t = some s') : ReachFwd s'
  | shifted (s : SysState) (n : Nat) (s' : SysState)
      (hr : ReachFwd s) (hfwd : s.repo.cursor ≤ n)
      (h : (shift s n).1 = some s') : ReachFwd s'
  | shiftAborted (s : SysState) (n : Nat)
      (hr : ReachFwd s) (hfwd : s.repo.cursor ≤ n) (h : (shift s n).1 = none) :
      ReachFwd { s with repo := ⟨n, s.repo.changes⟩ }
  | edited (s : SysState) (w' : List (String × List Byte))
      (hr : ReachFwd s) : ReachFwd { s with working := w' }

/-- Every change index in every stored history is at most `c`. -/
def BoundedStore (c : Nat) (hs : List (String × FileHistory)) : Prop :=
  ∀ e ∈ hs, ∀ ch ∈ e.2.changes, ch.change_index ≤ c

/-- Every stored history has non-decreasing change indices. -/
def MonotoneStore (hs : List (String × FileHistory)) : Prop :=
  ∀ e ∈ hs, MonotoneHistory e.2

/-- Well-formedness of an enumerated entry with respect to the store it will
be processed against: the resources its branch of `get_new_history_for_file`
reads do exist, and the history it reads is bounded by the cursor. -/
def EntryWF (w : List (String × List Byte)) (c : Nat)
    (hs : List (String × FileHistory)) : FileState → Prop
  | .Tracked p =>
      (∃ h, List.lookup p hs = some h ∧ ∀ ch ∈ h.changes, ch.change_index ≤ c) ∧
      (List.lookup p w).isSome = true
  | .Untracked p => (List.lookup p w).isSome = true
  | .Deleted p =>
      ∃ h, List.lookup p hs = some h ∧ ∀ ch ∈ h.changes, ch.change_index ≤ c

/-- Postcondition of one Update pass for an enumerated entry: at cursor
`c + 1` the stored history reconstructs exactly the working bytes
(for working entries) or certifies deletion (for deleted entries). -/
def PostEntry (w : List (String × List Byte)) (c : Nat)
    (hs' : List (String × FileHistory)) : FileState → Prop
  | .Tracked p =>
      ∃ h' wc, List.lookup p hs' = some h' ∧ List.lookup p w = some wc ∧
        h'.get_content (c + 1) = wc
  | .Untracked p =>
      ∃ h' wc, List.lookup p hs' = some h' ∧ List.lookup p w = some wc ∧
        h'.get_content (c + 1) = wc
  | .Deleted p =>
      ∃ h', List.lookup p hs' = some h' ∧ h'.is_file_deleted (c + 1) = true

/-- An entry whose processing is a no-op (no FileChange recorded). -/
def NoopEntry (w : List (String × List Byte)) (c : Nat)
    (hs : List (String × FileHistory)) : FileState → Prop
  | .Tracked p =>
      ∃ h wc, List.lookup p hs = some h ∧ List.lookup p w = some wc ∧
        ContentChange.diff (h.get_content c) wc = []
  | .Untracked _ => False
  | .Deleted p => ∃ h, List.lookup p hs = some h ∧ h.is_file_deleted c = true

/-- Concrete trace: repository created over one file `a = [1]`. -/
def exState1 : SysState :=
  ⟨[("a", [1])],
   [("a", ⟨[⟨1, .Updated [.Inserted 0 [1]]⟩]⟩)],
   ⟨1, [⟨["a"], 0⟩]⟩⟩

/-- State `exState1` after the user edits `a` to `[1, 2]`. -/
def exState2 : SysState :=
  ⟨[("a", [1, 2])],
   [("a", ⟨[⟨1, .Updated [.Inserted 0 [1]]⟩]⟩)],
   ⟨1, [⟨["a"], 0⟩]⟩⟩

/-- State `exState2` after a second Update (cursor 2). -/
def exState3 : SysState :=
  ⟨[("a", [1, 2])],
   [("a", ⟨[⟨1, .Updated [.Inserted 0 [1]]⟩,
            ⟨2, .Updated [.Inserted 1 [2]]⟩]⟩)],
   ⟨2, [⟨["a"], 0⟩, ⟨["a"], 1⟩]⟩⟩

/-- State `exState3` after `shift 0`: the working file is rewound to the contents
at cursor 0 (empty), the log is untouched, the cursor is 0. -/
def exState4 : SysState :=
  ⟨[("a", [])],
   [("a", ⟨[⟨1, .Updated [.Inserted 0 [1]]⟩,
            ⟨2, .Updated [.Inserted 1 [2]]⟩]⟩)],
   ⟨0, [⟨["a"], 0⟩, ⟨["a"], 1⟩]⟩⟩

/-- State `exState4` after the user edits `a` to `[7]`. -/
def exState5 : SysState :=
  ⟨[("a", [7])],
   [("a", ⟨[⟨1, .Updated [.Inserted 0 [1]]⟩,
            ⟨2, .Updated [.Inserted 1 [2]]⟩]⟩)],
   ⟨0, [⟨["a"], 0⟩, ⟨["a"], 1⟩]⟩⟩

/-- State `exState5` after an Update at cursor 0: the new FileChange is recorded at
`change_index 1`, after the existing change at index 2 — the history's
indices are now 1, 2, 1. -/
def exState6 : SysState :=
  ⟨[("a", [7])],
   [("a", ⟨[⟨1, .Updated [.Inserted 0 [1]]⟩,
            ⟨2, .Updated [.Inserted 1 [2]]⟩,
            ⟨1, .Updated [.Inserted 0 [7]]⟩]⟩)],
   ⟨1, [⟨["a"], 0⟩, ⟨["a"], 1⟩, ⟨["a"], 2⟩]⟩⟩

/-- The non-monotone file history reached in `exState6`. -/
def exBadHistory : FileHistory :=
  ⟨[⟨1, .Updated [.Inserted 0 [1]]⟩,
    ⟨2, .Updated [.Inserted 1 [2]]⟩,
    ⟨1, .Updated [.Inserted 0 [7]]⟩]⟩

/-- State `exState6` after one more Update: the take_while replay sees only the
prefix up to the first index-2 change, reconstructs stale content, and
records yet another FileChange although the working tree did not change. -/
def exState7 : SysState :=
  ⟨[("a", [7])],
   [("a", ⟨[⟨1, .Updated [.Inserted 0 [1]]⟩,
            ⟨2, .Updated [.Inserted 1 [2]]⟩,
            ⟨1, .Updated [.Inserted 0 [7]]⟩,
            ⟨2, .Updated [.Deleted 0 1, .Inserted 0 [7]]⟩]⟩)],
   ⟨2, [⟨["a"], 0⟩, ⟨["a"], 1⟩, ⟨["a"], 2⟩, ⟨["a"], 3⟩]⟩⟩

end Ka

namespace KaEnum

/-- A filesystem path, as its list of components (`std::path::PathBuf`). -/
abbrev Path := List String

/-- A directory entry as surfaced by `Fs::read_directory` (`FsEntry`): its
path and its `is_directory` flag. -/
structure FsEntry where
  path : Path
  isDir : Bool
deriving DecidableEq, Repr

/-- The filesystem collaborator as seen by the enumeration code
(`Locations::get_repository_files`): listing one directory level and testing
path existence.  Directory reads are modelled total; an I/O failure of
`read_directory` is orthogonal to the claims about unrelated paths. -/
structure Fs where
  readDir : Path → List FsEntry
  pathExists : Path → Bool

/-- Mirrors `Locations` in `src/files.rs`. -/
structure Locations where
  repository_path : Path
  ka_path : Path
  ka_files_path : Path

/-- Rust `Path::strip_prefix`: the remainder of `p` after removing the
leading components `base`, or `none` (a `StripPrefixError`) when `base` is
not a leading path of `p`. -/
def stripBase : Path → Path → Option Path
  | p, [] => some p
  | [], _ :: _ => none
  | c :: p, b :: base => if c = b then stripBase p base else none

/-- Mirrors `Locations::working_from_history`. -/
def working_from_history (locs : Locations) (history_file_path : Path) : Option Path :=
  (stripBase history_file_path locs.ka_files_path).map
    (fun raw => locs.repository_path ++ raw)

/-- Mirrors `Locations::history_from_working`. -/
def history_from_working (locs : Locations) (working_file_path : Path) : Option Path :=
  (stripBase working_file_path locs.repository_path).map
    (fun raw => locs.ka_files_path ++ raw)

/-- Mirrors `FileState` in `src/files.rs` (path-structured variant). -/
inductive FileState where
  | Tracked (working_path history_path : Path)
  | Untracked (path : Path)
  | Deleted (history_path : Path)
deriving DecidableEq, Repr

/-- Mirrors `FileState::from_working`: `none` models the `Err` of
`history_from_working` on an unrelated path; otherwise classify by existence
of the history resource.  Note this constructor never yields `Deleted`. -/
def FileState.from_working (fs : Fs) (locs : Locations) (p : Path) : Option FileState :=
  match history_from_working locs p with
  | none => none
  | some history_path =>
      some (if fs.pathExists history_path then .Tracked p history_path else .Untracked p)

/-- Mirrors `FileState::from_history`. -/
def FileState.from_history (fs : Fs) (locs : Locations) (hp : Path) : Option FileState :=
  match working_from_history locs hp with
  | none => none
  | some working_path =>
      some (if fs.pathExists working_path then .Tracked working_path hp else .Deleted hp)

/-- One directory level of `Locations::walk_directory`: collect the
`filter_map` results in order; for a directory entry, delegate to `nested`
(the walk one level deeper).  A `filter_map` returning `none` for an entry
is a silent skip, exactly as in the Rust code where
`FileState::from_working(...).ok()` discards the error; only a failing
nested walk propagates as `none`. -/
def walkList (fs : Fs) (fm : FsEntry → Option FileState)
    (nested : List FsEntry → Option (List FileState)) :
    List FsEntry → Option (List FileState)
  | [] => some []
  | e :: rest =>
      if e.isDir then
        match nested (fs.readDir e.path) with
        | none => none
        | some nestedFiles =>
            match walkList fs fm nested rest with
            | none => none
            | some rest' => some (nestedFiles ++ rest')
      else
        match fm e with
        | some st =>
            match walkList fs fm nested rest with
            | none => none
            | some rest' => some (st :: rest')
        | none => walkList fs fm nested rest

/-- Mirrors `Locations::walk_directory`: recursive walk collecting the
`filter_map` results.  The `fuel` bound on nesting depth makes the recursion
total (an adversarial `readDir` could yield an infinite tree); `none` models
only fuel exhaustion. -/
def walk_directory (fs : Fs) (fm : FsEntry → Option FileState) :
    Nat → List FsEntry → Option (List FileState)
  | 0 => walkList fs fm (fun _ => none)
  | fuel + 1 => walkList fs fm (walk_directory fs fm fuel)

/-- Mirrors `Locations::get_repository_files`: walk the working tree
(excluding the metadata subtree) through `from_working(...).ok()`, walk the
metadata file store through `from_history(...).ok()?` keeping only `Deleted`
results, and concatenate. -/
def get_repository_files (fs : Fs) (locs : Locations) (fuel : Nat) :
    Option (List FileState) :=
  match walk_directory fs (fun e => FileState.from_working fs locs e.path)
      fuel ((fs.readDir locs.repository_path).filter
        (fun e => e.path ≠ locs.ka_path)) with
  | none => none
  | some working_files =>
      match walk_directory fs
          (fun e =>
            match FileState.from_history fs locs e.path with
            | some (.Deleted hp) => some (.Deleted hp)
            | _ => none)
          fuel (fs.readDir locs.ka_files_path) with
      | none => none
      | some deleted_files => some (working_files ++ deleted_files)

/-- A classification result whose path was successfully expressed relative to
the repository root (`Tracked`/`Untracked` from the working walk) or to the
metadata file store (`Deleted` from the history walk). -/
def relatedState (locs : Locations) : FileState → Prop
  | .Tracked wp _ => (stripBase wp locs.repository_path).isSome
  | .Untracked wp => (stripBase wp locs.repository_path).isSome
  | .Deleted hp => (stripBase hp locs.ka_files_path).isSome

/-- The standard metadata layout for repository root `repo`. -/
def exLocs : Locations :=
  ⟨["repo"], ["repo", ".ka"], ["repo", ".ka", "files"]⟩

/-- Example filesystem for the enumeration theorems: the repository root
lists one related file `repo/a` and one entry at `elsewhere/x` that cannot be
expressed relative to the root (as a symlinked or otherwise alien directory
entry would surface); the metadata store is empty, and no other path
exists. -/
def exFs : Fs where
  readDir := fun p =>
    if p = ["repo"] then [⟨["repo", "a"], false⟩, ⟨["elsewhere", "x"], false⟩]
    else []
  pathExists := fun _ => false

end KaEnum

namespace Ka

theorem applyScript_nil (buffer : List Byte) : applyScript [] buffer = buffer := rfl

theorem applyScript_cons (c : ContentChange) (cs : List ContentChange) (buffer : List Byte) :
    applyScript (c :: cs) buffer = applyScript cs (c.apply buffer) := rfl

theorem opsValidFrom_bounds (old new : List Byte) :
    ∀ (ops : List DiffOp) (i j : Nat), opsValidFrom old new i j ops = true →
      i ≤ old.length ∧ j ≤ new.length := by
  intro ops
  induction ops with
  | nil =>
      intro i j h
      simp only [opsValidFrom, Bool.and_eq_true, decide_eq_true_eq, and_assoc] at h
      omega
  | cons op rest ih =>
      intro i j h
      cases op <;>
        simp only [opsValidFrom, Bool.and_eq_true, decide_eq_true_eq, and_assoc] at h <;>
        obtain ⟨-, -, h⟩ := h <;>
        first
          | (obtain ⟨h1, h2, -, hrec⟩ := h; have := ih _ _ hrec; omega)
          | (obtain ⟨h1, hrec⟩ := h; have := ih _ _ hrec; omega)
          | (obtain ⟨h1, h2, hrec⟩ := h; have := ih _ _ hrec; omega)

theorem take_append_of_length {α : Type} (l₁ l₂ : List α) (j : Nat) (h : l₁.length = j) :
    (l₁ ++ l₂).take j = l₁ := by
  subst h
  simp [List.take_append_eq_append_take]

theorem drop_append_of_length {α : Type} (l₁ l₂ : List α) (j n : Nat) (h : l₁.length = j) :
    (l₁ ++ l₂).drop (j + n) = l₂.drop n := by
  subst h
  simp [List.drop_append_eq_append_drop]

theorem drop_drop' {α : Type} (l : List α) (m n : Nat) : (l.drop m).drop n = l.drop (m + n) := by
  simp [List.drop_drop, Nat.add_comm]

/-- Invariant of the translation loop: starting from a buffer holding the
already-built part of `new` followed by the unprocessed tail of `old`, a
valid op tail rebuilds `new` exactly. -/
theorem applyScript_changesFromOps (old new : List Byte) :
    ∀ (ops : List DiffOp) (i j : Nat), opsValidFrom old new i j ops = true →
      applyScript (changesFromOps new j ops) (new.take j ++ old.drop i) = new := by
  intro ops
  induction ops with
  | nil =>
      intro i j h
      simp only [opsValidFrom, Bool.and_eq_true, decide_eq_true_eq, and_assoc] at h
      obtain ⟨hi, hj⟩ := h
      simp [changesFromOps, applyScript, hi, hj, List.take_length, List.drop_length]
  | cons op rest ih =>
      intro i j h
      have hjlen : j ≤ new.length := by
        cases op <;>
          simp only [opsValidFrom, Bool.and_eq_true, decide_eq_true_eq, and_assoc] at h <;>
          obtain ⟨-, -, h⟩ := h <;>
          first
            | (obtain ⟨h1, h2, -, hrec⟩ := h;
               have := opsValidFrom_bounds old new rest _ _ hrec; omega)
            | (obtain ⟨h1, hrec⟩ := h;
               have := opsValidFrom_bounds old new rest _ _ hrec; omega)
            | (obtain ⟨h1, h2, hrec⟩ := h;
               have := opsValidFrom_bounds old new rest _ _ hrec; omega)
      have hlen : (new.take j).length = j := by
        simp [List.length_take]; omega
      cases op with
      | Equal oi ni len =>
          simp only [opsValidFrom, Bool.and_eq_true, decide_eq_true_eq, and_assoc] at h
          obtain ⟨-, -, hil, hjl, hsl, hrec⟩ := h
          have hbuf : new.take j ++ old.drop i =
              new.take (j + len) ++ old.drop (i + len) := by
            have h1 : old.drop i = sliceL old i len ++ old.drop (i + len) := by
              unfold sliceL
              rw [← drop_drop' old i len, List.take_append_drop]
            have h2 : new.take (j + len) = new.take j ++ sliceL new j len := by
              unfold sliceL
              rw [List.take_add]
            rw [h1, hsl, h2, List.append_assoc]
          rw [changesFromOps, hbuf]
          exact ih (i + len) (j + len) hrec
      | Delete oi ol ni =>
          simp only [opsValidFrom, Bool.and_eq_true, decide_eq_true_eq, and_assoc] at h
          obtain ⟨-, -, hil, hrec⟩ := h
          rw [changesFromOps, applyScript_cons]
          have happ : ContentChange.apply (.Deleted j (j + ol)) (new.take j ++ old.drop i) =
              new.take j ++ old.drop (i + ol) := by
            show (new.take j ++ old.drop i).take j ++ (new.take j ++ old.drop i).drop (j + ol) = _
            rw [take_append_of_length _ _ _ hlen, drop_append_of_length _ _ _ _ hlen,
              drop_drop']
          rw [happ]
          exact ih (i + ol) j hrec
      | Insert oi ni nl =>
          simp only [opsValidFrom, Bool.and_eq_true, decide_eq_true_eq, and_assoc] at h
          obtain ⟨-, hni, hjl, hrec⟩ := h
          rw [changesFromOps, applyScript_cons]
          have happ : ContentChange.apply (.Inserted j (sliceL new ni nl))
                (new.take j ++ old.drop i) = new.take (j + nl) ++ old.drop i := by
            show (new.take j ++ old.drop i).take j ++ sliceL new ni nl ++
                (new.take j ++ old.drop i).drop j = _
            have hdrop : (new.take j ++ old.drop i).drop j = old.drop i := by
              have := drop_append_of_length (new.take j) (old.drop i) j 0 hlen
              simpa using this
            rw [take_append_of_length _ _ _ hlen, hdrop, hni]
            have h2 : new.take (j + nl) = new.take j ++ sliceL new j nl := by
              unfold sliceL
              rw [List.take_add]
            rw [h2, List.append_assoc]
          rw [happ]
          exact ih i (j + nl) hrec
      | Replace oi ol ni nl =>
          simp only [opsValidFrom, Bool.and_eq_true, decide_eq_true_eq, and_assoc] at h
          obtain ⟨-, hni, hil, hjl, hrec⟩ := h
          rw [changesFromOps, applyScript_cons, applyScript_cons]
          have happ1 : ContentChange.apply (.Deleted j (j + ol)) (new.take j ++ old.drop i) =
              new.take j ++ old.drop (i + ol) := by
            show (new.take j ++ old.drop i).take j ++ (new.take j ++ old.drop i).drop (j + ol) = _
            rw [take_append_of_length _ _ _ hlen, drop_append_of_length _ _ _ _ hlen,
              drop_drop']
          have happ2 : ContentChange.apply (.Inserted j (sliceL new ni nl))
                (new.take j ++ old.drop (i + ol)) = new.take (j + nl) ++ old.drop (i + ol) := by
            show (new.take j ++ old.drop (i + ol)).take j ++ sliceL new ni nl ++
                (new.take j ++ old.drop (i + ol)).drop j = _
            have hdrop : (new.take j ++ old.drop (i + ol)).drop j = old.drop (i + ol) := by
              have := drop_append_of_length (new.take j) (old.drop (i + ol)) j 0 hlen
              simpa using this
            rw [take_append_of_length _ _ _ hlen, hdrop, hni]
            have h2 : new.take (j + nl) = new.take j ++ sliceL new j nl := by
              unfold sliceL
              rw [List.take_add]
            rw [h2, List.append_assoc]
          rw [happ1, happ2]
          exact ih (i + ol) (j + nl) hrec

/-- Round trip for the repository's op-translation loop: any op list
satisfying the external differ's covering contract, once translated by the
loop of `ContentChange::diff`, rebuilds `new` from `old`. -/
theorem roundtrip_of_opsValid (old new : List Byte) (ops : List DiffOp)
    (h : opsValid old new ops = true) :
    applyScript (changesFromOps new 0 ops) old = new := by
  have := applyScript_changesFromOps old new ops 0 0 h
  simpa using this

theorem commonPfxLen_le_left : ∀ (a b : List Byte), commonPfxLen a b ≤ a.length := by
  intro a
  induction a with
  | nil => intro b; cases b <;> simp [commonPfxLen]
  | cons x xs ih =>
      intro b
      cases b with
      | nil => simp [commonPfxLen]
      | cons y ys =>
          by_cases hxy : x = y <;> simp [commonPfxLen, hxy]
          exact ih ys

theorem commonPfxLen_le_right : ∀ (a b : List Byte), commonPfxLen a b ≤ b.length := by
  intro a
  induction a with
  | nil => intro b; cases b <;> simp [commonPfxLen]
  | cons x xs ih =>
      intro b
      cases b with
      | nil => simp [commonPfxLen]
      | cons y ys =>
          by_cases hxy : x = y <;> simp [commonPfxLen, hxy]
          exact ih ys

theorem commonPfxLen_take : ∀ (a b : List Byte),
    a.take (commonPfxLen a b) = b.take (commonPfxLen a b) := by
  intro a
  induction a with
  | nil => intro b; cases b <;> simp [commonPfxLen]
  | cons x xs ih =>
      intro b
      cases b with
      | nil => simp [commonPfxLen]
      | cons y ys =>
          by_cases hxy : x = y <;> simp [commonPfxLen, hxy]
          exact ih ys

theorem commonPfxLen_self : ∀ (a : List Byte), commonPfxLen a a = a.length := by
  intro a
  induction a with
  | nil => simp [commonPfxLen]
  | cons x xs ih => simp [commonPfxLen, ih]

theorem opsValid_similarOps (old new : List Byte) :
    opsValid old new (similarOps old new) = true := by
  unfold opsValid similarOps
  have hp1 : commonPfxLen old new ≤ old.length := commonPfxLen_le_left old new
  have hp2 : commonPfxLen old new ≤ new.length := commonPfxLen_le_right old new
  have hsl : sliceL old 0 (commonPfxLen old new) = sliceL new 0 (commonPfxLen old new) := by
    unfold sliceL
    simpa using commonPfxLen_take old new
  set p := commonPfxLen old new with hpdef
  by_cases h0 : 0 < p <;>
    by_cases hon : old.length - p = 0 ∧ new.length - p = 0 <;>
      [skip; skip; skip; skip] <;>
    simp only [h0, hon, if_true, if_false, ite_true, ite_false, if_pos, if_neg] <;>
    first
      | (by_cases ho : old.length - p = 0 <;> by_cases hn : new.length - p = 0 <;>
          simp only [ho, hn, ite_true, ite_false] <;>
          simp_all [opsValidFrom, sliceL] <;> omega)
      | skip
  all_goals
    by_cases ho : old.length - p = 0 <;> by_cases hn : new.length - p = 0 <;>
      simp_all [opsValidFrom, sliceL] <;> omega

/-- Round trip of the repository differ with the modelled alignment engine:
applying `diff(old, new)` to `old` yields `new`. -/
theorem diff_roundtrip (old new : List Byte) :
    applyScript (ContentChange.diff old new) old = new :=
  roundtrip_of_opsValid old new (similarOps old new) (opsValid_similarOps old new)

/-- A diff of identical buffers is the empty edit script. -/
theorem diff_self (x : List Byte) : ContentChange.diff x x = [] := by
  unfold ContentChange.diff similarOps
  simp only [commonPfxLen_self, Nat.sub_self]
  by_cases h0 : 0 < x.length <;> simp [h0, changesFromOps]

/-- An empty edit script certifies equal buffers. -/
theorem diff_eq_nil_iff (old new : List Byte) :
    ContentChange.diff old new = [] ↔ old = new := by
  constructor
  · intro h
    have := diff_roundtrip old new
    rw [h] at this
    simpa [applyScript] using this
  · intro h
    subst h
    exact diff_self old

/-- On any list whose key is non-decreasing, `takeWhile (key ≤ c)` agrees
with `filter (key ≤ c)`. -/
theorem takeWhile_eq_filter_of_pairwise (c : Nat) :
    ∀ (l : List FileChange), l.Pairwise (fun x y => x.change_index ≤ y.change_index) →
      l.takeWhile (fun ch => ch.change_index ≤ c) = l.filter (fun ch => ch.change_index ≤ c) := by
  intro l
  induction l with
  | nil => intro _; rfl
  | cons x xs ih =>
      intro hp
      rw [List.pairwise_cons] at hp
      obtain ⟨hx, hxs⟩ := hp
      by_cases hxc : x.change_index ≤ c
      · simp only [List.takeWhile_cons, List.filter_cons, hxc, decide_True, if_true]
        simp [ih hxs]
      · have hnone : xs.filter (fun ch => ch.change_index ≤ c) = [] := by
          rw [List.filter_eq_nil_iff]
          intro a ha
          have := hx a ha
          simp only [decide_eq_true_eq]
          omega
        simp [List.takeWhile_cons, List.filter_cons, hxc, hnone]

theorem get_content_eq_spec_of_monotone (h : FileHistory) (c : Nat)
    (hm : MonotoneHistory h) : h.get_content c = reconstructSpec h c := by
  unfold FileHistory.get_content reconstructSpec
  rw [takeWhile_eq_filter_of_pairwise c h.changes hm]

theorem is_file_deleted_eq_spec_of_monotone (h : FileHistory) (c : Nat)
    (hm : MonotoneHistory h) : h.is_file_deleted c = isDeletedSpec h c := by
  unfold FileHistory.is_file_deleted isDeletedSpec
  rw [takeWhile_eq_filter_of_pairwise c h.changes hm]

/-- If no change is at or below the cursor, replay yields the empty buffer
(this holds without any monotonicity assumption, because the first element
already fails the `take_while` test). -/
theorem get_content_eq_nil_of_none_le (h : FileHistory) (c : Nat)
    (hnone : ∀ ch ∈ h.changes, c < ch.change_index) : h.get_content c = [] := by
  unfold FileHistory.get_content
  cases hch : h.changes with
  | nil => simp
  | cons x xs =>
      have hx : ¬ x.change_index ≤ c := by
        have := hnone x (by rw [hch]; exact List.mem_cons_self x xs)
        omega
      simp [List.takeWhile_cons, hx]

/-- If a history decomposes as `pre ++ [Deleted at D] ++ rest` with `D ≤ c`
and every `rest` change at or below the cursor is itself a deletion, the
spec-side `is_deleted` is true. -/
theorem isDeletedSpec_true_of (h : FileHistory) (c : Nat) (pre rest : List FileChange)
    (D : Nat) (hl : h.changes = pre ++ ⟨D, .Deleted⟩ :: rest) (hD : D ≤ c)
    (hrest : ∀ r ∈ rest, r.change_index ≤ c → r.variant = .Deleted) :
    isDeletedSpec h c = true := by
  unfold isDeletedSpec
  rw [hl, List.filter_append]
  have hDf : List.filter (fun ch => decide (ch.change_index ≤ c))
        (⟨D, FileChangeVariant.Deleted⟩ :: rest) =
      ⟨D, FileChangeVariant.Deleted⟩ ::
        rest.filter (fun ch => decide (ch.change_index ≤ c)) := by
    simp [List.filter_cons, hD]
  rw [hDf, List.getLast?_append_cons]
  have hne : (⟨D, FileChangeVariant.Deleted⟩ ::
      rest.filter (fun ch => decide (ch.change_index ≤ c))) ≠ [] := by simp
  have hall : ∀ x ∈ ⟨D, FileChangeVariant.Deleted⟩ ::
      rest.filter (fun ch => decide (ch.change_index ≤ c)), x.variant = .Deleted := by
    intro x hx
    rcases List.mem_cons.mp hx with h1 | h2
    · rw [h1]
    · have hmem := List.mem_filter.mp h2
      exact hrest x hmem.1 (by simpa using hmem.2)
  rw [List.getLast?_eq_getLast_of_ne_nil hne]
  have hvar := hall _ (List.getLast_mem hne)
  simp [hvar]

/-- If a history decomposes as `pre ++ [Updated at U] ++ tail` with `U ≤ c`
and every `tail` change is above the cursor, the spec-side `is_deleted` is
false. -/
theorem isDeletedSpec_false_of (h : FileHistory) (c : Nat) (pre tail : List FileChange)
    (U : Nat) (us : List ContentChange)
    (hl : h.changes = pre ++ ⟨U, .Updated us⟩ :: tail) (hU : U ≤ c)
    (htail : ∀ t ∈ tail, c < t.change_index) :
    isDeletedSpec h c = false := by
  unfold isDeletedSpec
  rw [hl, List.filter_append]
  have hUf : List.filter (fun ch => decide (ch.change_index ≤ c))
        (⟨U, FileChangeVariant.Updated us⟩ :: tail) =
      ⟨U, FileChangeVariant.Updated us⟩ :: ([] : List FileChange) := by
    simp only [List.filter_cons, hU, decide_True, if_true]
    congr 1
    rw [List.filter_eq_nil_iff]
    intro t ht
    have := htail t ht
    simp only [decide_eq_true_eq]
    omega
  rw [hUf, List.getLast?_append_cons]
  simp

end Ka

namespace Ka

/-- C1: round trip of the content differ.  For every pair of byte buffers and
every alignment op list satisfying the external differ's output contract
(`opsValid` — the contract of `similar::capture_diff_slices_deadline`, any
deadline behaviour included), sequentially applying each ContentChange
produced by the translation loop of `ContentChange::diff`, in list order, to
a copy of `old` yields exactly `new`; in particular this holds for
`ContentChange.diff` itself (second conjunct), including empty buffers and
buffers with repeated runs. -/
theorem ka_c1_diff_roundtrip (old new : List Byte) (ops : List DiffOp)
    (h : opsValid old new ops = true) :
    applyScript (changesFromOps new 0 ops) old = new ∧
    applyScript (ContentChange.diff old new) old = new :=
  ⟨roundtrip_of_opsValid old new ops h, diff_roundtrip old new⟩

/-- Witness for C1 at a concrete input exercising all four op kinds. -/
theorem ka_c1_diff_roundtrip_witness :
    opsValid [1, 2, 3] [1, 5, 3, 4]
        [.Equal 0 0 1, .Replace 1 1 1 1, .Equal 2 2 1, .Insert 3 3 1] = true ∧
    applyScript (changesFromOps [1, 5, 3, 4] 0
        [.Equal 0 0 1, .Replace 1 1 1 1, .Equal 2 2 1, .Insert 3 3 1]) [1, 2, 3] =
      [1, 5, 3, 4] :=
  ⟨by decide,
   (ka_c1_diff_roundtrip [1, 2, 3] [1, 5, 3, 4]
      [.Equal 0 0 1, .Replace 1 1 1 1, .Equal 2 2 1, .Insert 3 3 1] (by decide)).1⟩

/-- C10 (implicit): diffing a buffer against itself yields the empty edit
script, which is what makes an Update of an unchanged tracked file record no
FileChange. -/
theorem ka_c10_diff_self (x : List Byte) : ContentChange.diff x x = [] :=
  diff_self x

/-- C9: the create scenario.  Starting from a repository containing exactly
one pre-existing working file `./test` with bytes `[1,2,3]`, `create(now)`
produces the index with cursor 1 and exactly one RepositoryChange
`{affected_files: ["./test"], timestamp: now}`, and a file history at the
metadata path for `test` with exactly one FileChange
`{change_index: 1, variant: Updated([Inserted{at: 0, new_content: [1,2,3]}])}`. -/
theorem ka_c9_create_scenario (now : Nat) :
    create ⟨[("./test", [1, 2, 3])], [], ⟨0, []⟩⟩ now =
      some ⟨[("./test", [1, 2, 3])],
            [("./test", ⟨[⟨1, .Updated [.Inserted 0 [1, 2, 3]]⟩]⟩)],
            ⟨1, [⟨["./test"], now⟩]⟩⟩ := rfl

/-- C2 counterexample: `get_content` is NOT the fold over all changes with
`change_index <= cursor` on an arbitrary FileHistory.  With the history
`[{change_index 5, Updated [Inserted 0 [9]]}, {change_index 1, Updated
[Inserted 0 [7]]}]` (reachable in shape after a backward Shift) and cursor 1,
the take_while replay stops at the first change and yields `[]`, while the
spec's filter-fold yields `[7]`. -/
theorem ka_c2_counterexample :
    ¬ (FileHistory.get_content
          ⟨[⟨5, .Updated [.Inserted 0 [9]]⟩, ⟨1, .Updated [.Inserted 0 [7]]⟩]⟩ 1 =
        reconstructSpec
          ⟨[⟨5, .Updated [.Inserted 0 [9]]⟩, ⟨1, .Updated [.Inserted 0 [7]]⟩]⟩ 1) := by
  decide

/-- C2 amended: for every FileHistory whose `change_index` values are
non-decreasing in log order (the §3 invariant) and every cursor,
`get_content` equals the deterministic left-fold over all changes with
`change_index <= C` in log order (`reconstructSpec`); and — unconditionally —
it returns empty bytes when no change has `change_index <= C`. -/
theorem ka_c2_amended (h : FileHistory) (c : Nat) :
    (MonotoneHistory h → h.get_content c = reconstructSpec h c) ∧
    ((∀ ch ∈ h.changes, c < ch.change_index) → h.get_content c = []) :=
  ⟨fun hm => get_content_eq_spec_of_monotone h c hm,
   fun hnone => get_content_eq_nil_of_none_le h c hnone⟩

/-- Witness for C2 amended at a concrete monotone history. -/
theorem ka_c2_amended_witness :
    FileHistory.get_content ⟨[⟨1, .Updated [.Inserted 0 [1]]⟩, ⟨3, .Deleted⟩]⟩ 1 =
      reconstructSpec ⟨[⟨1, .Updated [.Inserted 0 [1]]⟩, ⟨3, .Deleted⟩]⟩ 1 :=
  (ka_c2_amended ⟨[⟨1, .Updated [.Inserted 0 [1]]⟩, ⟨3, .Deleted⟩]⟩ 1).1 (by decide)

/-- C6 counterexample: `is_file_deleted` is NOT determined by the last change
in log order with `change_index <= cursor` on an arbitrary FileHistory.
With the history `[{change_index 5, Updated []}, {change_index 1, Deleted}]`
and cursor 1, the last change with index ≤ 1 is the Deleted one (spec says
true), but the take_while in the code stops at the first change and returns
false. -/
theorem ka_c6_counterexample :
    ¬ (FileHistory.is_file_deleted ⟨[⟨5, .Updated []⟩, ⟨1, .Deleted⟩]⟩ 1 =
        isDeletedSpec ⟨[⟨5, .Updated []⟩, ⟨1, .Deleted⟩]⟩ 1) := by
  decide

/-- C6 amended: for every FileHistory with non-decreasing `change_index`
(the §3 invariant) and every cursor, `is_file_deleted` is true iff the last
change in log order with `change_index <= cursor` is a `Deleted` variant and
false when no such change exists (first conjunct, via `isDeletedSpec`);
consequently, once a `Deleted` FileChange sits at index `D`, `is_file_deleted`
is true for every cursor in `[D, U)` where `U` is the index of the next
`Updated` change (second conjunct, first part), false from `U` until a later
change reaches the cursor (second conjunct, second part), and true for every
cursor ≥ `D` when no later `Updated` change exists (third conjunct). -/
theorem ka_c6_amended (h : FileHistory) (c : Nat) (hm : MonotoneHistory h) :
    (h.is_file_deleted c = isDeletedSpec h c) ∧
    (∀ pre D mid U us tail,
      h.changes = pre ++ ⟨D, .Deleted⟩ :: (mid ++ ⟨U, .Updated us⟩ :: tail) →
      (∀ m ∈ mid, m.variant = .Deleted) →
      ((D ≤ c ∧ c < U → h.is_file_deleted c = true) ∧
       (U ≤ c ∧ (∀ x ∈ tail, c < x.change_index) → h.is_file_deleted c = false))) ∧
    (∀ pre D mid, h.changes = pre ++ ⟨D, .Deleted⟩ :: mid →
      (∀ m ∈ mid, m.variant = .Deleted) → D ≤ c → h.is_file_deleted c = true) := by
  refine ⟨is_file_deleted_eq_spec_of_monotone h c hm, ?_, ?_⟩
  · intro pre D mid U us tail hl hmid
    have hm' := hm
    unfold MonotoneHistory at hm'
    rw [hl] at hm'
    have hrest := (List.pairwise_append.mp hm').2.1
    rw [List.pairwise_cons] at hrest
    have hUtail : ∀ t ∈ tail, U ≤ t.change_index := by
      have h2 := (List.pairwise_append.mp hrest.2).2.1
      rw [List.pairwise_cons] at h2
      exact fun t ht => h2.1 t ht
    constructor
    · rintro ⟨hD, hU⟩
      rw [is_file_deleted_eq_spec_of_monotone h c hm]
      refine isDeletedSpec_true_of h c pre (mid ++ ⟨U, .Updated us⟩ :: tail) D hl hD ?_
      intro r hr hrc
      rcases List.mem_append.mp hr with h1 | h2
      · exact hmid r h1
      · rcases List.mem_cons.mp h2 with h3 | h4
        · exfalso
          rw [h3] at hrc
          simp at hrc
          omega
        · exfalso
          have := hUtail r h4
          omega
    · rintro ⟨hU, htail⟩
      rw [is_file_deleted_eq_spec_of_monotone h c hm]
      refine isDeletedSpec_false_of h c (pre ++ ⟨D, .Deleted⟩ :: mid) tail U us ?_ hU htail
      rw [hl]
      simp
  · intro pre D mid hl hmid hD
    rw [is_file_deleted_eq_spec_of_monotone h c hm]
    exact isDeletedSpec_true_of h c pre mid D hl hD (fun r hr _ => hmid r hr)

/-- Witness for C6 amended at a concrete monotone history: Deleted at index 1
followed by Updated at index 3, queried at cursor 2. -/
theorem ka_c6_amended_witness :
    FileHistory.is_file_deleted ⟨[⟨1, .Deleted⟩, ⟨3, .Updated []⟩]⟩ 2 = true :=
  (((ka_c6_amended ⟨[⟨1, .Deleted⟩, ⟨3, .Updated []⟩]⟩ 2 (by decide)).2.1
      [] 1 [] 3 [] [] rfl (by simp)).1) (by constructor <;> decide)

/-- C4 is a code bug: shifting to a cursor beyond the last recorded change is
claimed (and specified) to be a legal no-op, but `shift` slices the change
log with `&changes[lo..hi]`, which panics when `hi` exceeds the log length.
Failing input: a repository with one recorded change (cursor 1), shifted to
cursor 2 — the model aborts (`none`) exactly where the Rust code panics. -/
theorem ka_c4_out_of_range_shift_aborts :
    (shift ⟨[("a", [1])],
            [("a", ⟨[⟨1, .Updated [.Inserted 0 [1]]⟩]⟩)],
            ⟨1, [⟨["a"], 0⟩]⟩⟩ 2).1 = none := rfl

theorem processShift_touched_subset :
    ∀ (ps : List String) (s : SysState) (nc : Nat) (p : String),
      p ∈ (processShift s nc ps).2 → p ∈ ps := by
  intro ps
  induction ps with
  | nil =>
      intro s nc p hp
      simp [processShift] at hp
  | cons q rest ih =>
      intro s nc p hp
      unfold processShift at hp
      cases hq : List.lookup q s.histories with
      | none =>
          rw [hq] at hp
          exact List.mem_cons_of_mem _ (ih _ _ _ hp)
      | some h =>
          rw [hq] at hp
          dsimp only at hp
          by_cases hdel : h.is_file_deleted nc
          · rw [if_pos hdel] at hp
            cases hw : List.lookup q s.working with
            | some content =>
                rw [hw] at hp
                rcases List.mem_cons.mp hp with h1 | h2
                · rw [h1]; exact List.mem_cons_self q rest
                · exact List.mem_cons_of_mem _ (ih _ _ _ h2)
            | none =>
                rw [hw] at hp
                simp at hp
          · rw [if_neg hdel] at hp
            rcases List.mem_cons.mp hp with h1 | h2
            · rw [h1]; exact List.mem_cons_self q rest
            · exact List.mem_cons_of_mem _ (ih _ _ _ h2)

theorem mem_affectedUnion (cs : List RepositoryChange) (x : String) :
    x ∈ affectedUnion cs → ∃ ch ∈ cs, x ∈ ch.affected_files := by
  unfold affectedUnion
  suffices hgen : ∀ (cs : List RepositoryChange) (acc : List String),
      x ∈ cs.foldl
        (fun acc c => acc ++ c.affected_files.filter (fun p => ¬ acc.contains p)) acc →
      x ∈ acc ∨ ∃ ch ∈ cs, x ∈ ch.affected_files by
    intro hx
    rcases hgen cs [] hx with h1 | h2
    · simp at h1
    · exact h2
  intro cs'
  induction cs' with
  | nil =>
      intro acc hx
      left
      simpa using hx
  | cons c rest ih =>
      intro acc hx
      rcases ih _ hx with h1 | h2
      · rcases List.mem_append.mp h1 with ha | hb
        · exact Or.inl ha
        · right
          exact ⟨c, List.mem_cons_self c rest, (List.mem_filter.mp hb).1⟩
      · right
        obtain ⟨ch, hch, hxch⟩ := h2
        exact ⟨ch, List.mem_cons_of_mem _ hch, hxch⟩

theorem processShift_untracked_untouched (nc : Nat) (p : String) :
    ∀ (ps : List String) (s : SysState), List.lookup p s.histories = none →
      p ∉ (processShift s nc ps).2 := by
  intro ps
  induction ps with
  | nil =>
      intro s _ hp
      simp [processShift] at hp
  | cons q rest ih =>
      intro s hnone hp
      unfold processShift at hp
      cases hq : List.lookup q s.histories with
      | none =>
          rw [hq] at hp
          exact ih s hnone hp
      | some h =>
          rw [hq] at hp
          dsimp only at hp
          have hpq : p ≠ q := by
            intro he
            rw [he, hq] at hnone
            exact absurd hnone (by simp)
          by_cases hdel : h.is_file_deleted nc
          · rw [if_pos hdel] at hp
            cases hw : List.lookup q s.working with
            | some content =>
                rw [hw] at hp
                rcases List.mem_cons.mp hp with h1 | h2
                · exact hpq h1
                · exact ih { s with working := removeA q s.working } hnone h2
            | none =>
                rw [hw] at hp
                simp at hp
          · rw [if_neg hdel] at hp
            rcases List.mem_cons.mp hp with h1 | h2
            · exact hpq h1
            · exact ih { s with working := setA q (h.get_content nc) s.working } hnone h2

/-- C8: minimal-touch shift.  First conjunct: every working path that `shift`
writes or deletes belongs to some RepositoryChange's `affected_files` within
the traversed half-open range `[min(old,new), max(old,new))` of the log.
Second conjunct: an untracked path — one with no history resource — is never
touched by shift: `FileState::from_working` classifies it `Untracked`, and
that arm of the per-file match is a no-op. -/
theorem ka_c8_minimal_touch (s : SysState) (n : Nat) (p : String) :
    (p ∈ (shift s n).2 →
      ∃ ch ∈ (s.repo.changes.drop (min s.repo.cursor n)).take
          (max s.repo.cursor n - min s.repo.cursor n),
        p ∈ ch.affected_files) ∧
    (List.lookup p s.histories = none → p ∉ (shift s n).2) := by
  constructor
  · intro hp
    unfold shift at hp
    by_cases hle : max s.repo.cursor n ≤ s.repo.changes.length
    · rw [if_pos hle] at hp
      have h1 := processShift_touched_subset _ _ _ _ hp
      exact mem_affectedUnion _ _ h1
    · rw [if_neg hle] at hp
      simp at hp
  · intro hnone
    unfold shift
    by_cases hle : max s.repo.cursor n ≤ s.repo.changes.length
    · rw [if_pos hle]
      exact processShift_untracked_untouched n p _ _ hnone
    · rw [if_neg hle]
      simp

/-- Witness for C8: shifting the two-change example repository back to
cursor 0 touches `a`, which indeed occurs in the traversed range, and never
touches the untracked path `b` (no history resource). -/
theorem ka_c8_minimal_touch_witness :
    "a" ∈ (shift exState3 0).2 ∧
    (∃ ch ∈ (exState3.repo.changes.drop (min exState3.repo.cursor 0)).take
        (max exState3.repo.cursor 0 - min exState3.repo.cursor 0),
      "a" ∈ ch.affected_files) ∧
    "b" ∉ (shift exState3 0).2 :=
  ⟨by decide, (ka_c8_minimal_touch exState3 0 "a").1 (by decide),
   (ka_c8_minimal_touch exState3 0 "b").2 (by decide)⟩

/-- C3 counterexample: the non-decreasing `change_index` invariant fails on a
state reachable by Create, Update, Shift (and user edits between actions):
create over `a = [1]`, edit, update, shift back to 0, edit, update — the
resulting history of `a` carries indices 1, 2, 1. -/
theorem ka_c3_counterexample :
    Reach exState6 ∧ List.lookup "a" exState6.histories = some exBadHistory ∧
      ¬ MonotoneHistory exBadHistory := by
  refine ⟨?_, by decide, by decide⟩
  have r1 : Reach exState1 := Reach.created [("a", [1])] 0 exState1 (by decide)
  have r2 : Reach exState2 := Reach.edited exState1 [("a", [1, 2])] r1
  have r3 : Reach exState3 := Reach.updated exState2 1 exState3 r2 (by decide)
  have r4 : Reach exState4 := Reach.shifted exState3 0 exState4 r3 (by decide)
  have r5 : Reach exState5 := Reach.edited exState4 [("a", [7])] r4
  exact Reach.updated exState5 2 exState6 r5 (by decide)

/-- C5 counterexample: update idempotence fails on a repository whose
history carries a change index above the cursor (the shape `shift` back to 0
leaves behind, compare `exState5`): the first update appends a FileChange at
index 1 and the second update, whose take_while replay cannot see that
appended change behind the index-2 entry, appends yet another FileChange —
the persisted resources are not byte-identical after the second run. -/
theorem ka_c5_counterexample :
    update exState5 2 = some exState6 ∧ ¬ (update exState6 3 = some exState6) := by
  constructor
  · decide
  · decide

end Ka

namespace KaEnum

theorem walkList_sound (fs : Fs) (fm : FsEntry → Option FileState)
    (P : FileState → Prop) (hfm : ∀ e st, fm e = some st → P st)
    (nested : List FsEntry → Option (List FileState))
    (hn : ∀ es res, nested es = some res → ∀ st ∈ res, P st) :
    ∀ (entries : List FsEntry) (res : List FileState),
      walkList fs fm nested entries = some res → ∀ st ∈ res, P st := by
  intro entries
  induction entries with
  | nil =>
      intro res h st hst
      simp only [walkList] at h
      injection h with h
      subst h
      simp at hst
  | cons e rest ih =>
      intro res h st hst
      unfold walkList at h
      by_cases hdir : e.isDir
      · rw [if_pos hdir] at h
        cases hnest : nested (fs.readDir e.path) with
        | none => rw [hnest] at h; exact absurd h (by simp)
        | some nestedFiles =>
            rw [hnest] at h
            cases hrest : walkList fs fm nested rest with
            | none => rw [hrest] at h; exact absurd h (by simp)
            | some rest' =>
                rw [hrest] at h
                injection h with h
                subst h
                rcases List.mem_append.mp hst with h1 | h2
                · exact hn _ _ hnest st h1
                · exact ih rest' hrest st h2
      · rw [if_neg hdir] at h
        cases hfme : fm e with
        | some st' =>
            rw [hfme] at h
            cases hrest : walkList fs fm nested rest with
            | none => rw [hrest] at h; exact absurd h (by simp)
            | some rest' =>
                rw [hrest] at h
                injection h with h
                subst h
                rcases List.mem_cons.mp hst with h1 | h2
                · rw [h1]; exact hfm e st' hfme
                · exact ih rest' hrest st h2
        | none =>
            rw [hfme] at h
            exact ih res h st hst

theorem walk_directory_sound (fs : Fs) (fm : FsEntry → Option FileState)
    (P : FileState → Prop) (hfm : ∀ e st, fm e = some st → P st) :
    ∀ (fuel : Nat) (entries : List FsEntry) (res : List FileState),
      walk_directory fs fm fuel entries = some res → ∀ st ∈ res, P st := by
  intro fuel
  induction fuel with
  | zero =>
      intro entries res h
      exact walkList_sound fs fm P hfm _ (fun es r hr => by simp at hr) entries res h
  | succ fuel ih =>
      intro entries res h
      exact walkList_sound fs fm P hfm _ ih entries res h

/-- C7 counterexample: an unrelated path encountered during enumeration does
NOT fail the batch.  In `exFs` the repository root lists the alien entry
`elsewhere/x`, whose classification fails (`from_working` errs, first
conjunct), yet `get_repository_files` succeeds, silently skipping the entry
and keeping only the related file (second conjunct); the offending entry was
genuinely encountered (third conjunct). -/
theorem ka_c7_counterexample :
    FileState.from_working exFs exLocs ["elsewhere", "x"] = none ∧
    get_repository_files exFs exLocs 1 = some [.Untracked ["repo", "a"]] ∧
    (⟨["elsewhere", "x"], false⟩ : FsEntry) ∈
      (exFs.readDir exLocs.repository_path).filter (fun e => e.path ≠ exLocs.ka_path) := by
  refine ⟨rfl, rfl, by decide⟩

/-- C7 amended: a working or history path that cannot be expressed relative
to the repository root never fails the batch — the `.ok()` in the enumeration
filter maps discards the error and the offending entry is skipped: whenever
enumeration completes, every FileState it produced has a successfully
relativized path. -/
theorem ka_c7_amended (fs : Fs) (locs : Locations) (fuel : Nat)
    (res : List FileState) (h : get_repository_files fs locs fuel = some res) :
    ∀ st ∈ res, relatedState locs st := by
  unfold get_repository_files at h
  cases hw : walk_directory fs (fun e => FileState.from_working fs locs e.path) fuel
      ((fs.readDir locs.repository_path).filter (fun e => e.path ≠ locs.ka_path)) with
  | none => rw [hw] at h; exact absurd h (by simp)
  | some working_files =>
      rw [hw] at h
      cases hd : walk_directory fs
          (fun e =>
            match FileState.from_history fs locs e.path with
            | some (.Deleted hp) => some (.Deleted hp)
            | _ => none)
          fuel (fs.readDir locs.ka_files_path) with
      | none => rw [hd] at h; exact absurd h (by simp)
      | some deleted_files =>
          rw [hd] at h
          injection h with h
          subst h
          intro st hst
          rcases List.mem_append.mp hst with h1 | h2
          · refine walk_directory_sound fs _ (relatedState locs) ?_ fuel _ _ hw st h1
            intro e st' hfw
            unfold FileState.from_working at hfw
            cases hh : history_from_working locs e.path with
            | none => rw [hh] at hfw; exact absurd hfw (by simp)
            | some hp =>
                rw [hh] at hfw
                injection hfw with hfw
                have hsome : (stripBase e.path locs.repository_path).isSome := by
                  unfold history_from_working at hh
                  cases hsb : stripBase e.path locs.repository_path with
                  | none => rw [hsb] at hh; exact absurd hh (by simp)
                  | some raw => simp [hsb]
                subst hfw
                by_cases hex : fs.pathExists hp <;> simp [hex, relatedState, hsome]
          · refine walk_directory_sound fs _ (relatedState locs) ?_ fuel _ _ hd st h2
            intro e st' hfh
            cases hfh2 : FileState.from_history fs locs e.path with
            | none => rw [hfh2] at hfh; exact absurd hfh (by simp)
            | some st'' =>
                rw [hfh2] at hfh
                unfold FileState.from_history at hfh2
                cases hwh : working_from_history locs e.path with
                | none => rw [hwh] at hfh2; exact absurd hfh2 (by simp)
                | some wp =>
                    rw [hwh] at hfh2
                    injection hfh2 with hfh2
                    have hsome : (stripBase e.path locs.ka_files_path).isSome := by
                      unfold working_from_history at hwh
                      cases hsb : stripBase e.path locs.ka_files_path with
                      | none => rw [hsb] at hwh; exact absurd hwh (by simp)
                      | some raw => simp [hsb]
                    subst hfh2
                    by_cases hex : fs.pathExists wp
                    · rw [if_pos hex] at hfh
                      exact absurd hfh (by simp)
                    · rw [if_neg hex] at hfh
                      simp only at hfh
                      injection hfh with hfh
                      rw [← hfh]
                      simpa [relatedState] using hsome

/-- Witness for C7 amended: on the example filesystem, the produced state has
a path related to the repository root. -/
theorem ka_c7_amended_witness :
    relatedState exLocs (.Untracked ["repo", "a"]) :=
  ka_c7_amended exFs exLocs 1 [.Untracked ["repo", "a"]] rfl
    (.Untracked ["repo", "a"]) (by decide)

end KaEnum

namespace Ka

theorem mem_of_lookup {α : Type} :
    ∀ (l : List (String × α)) (k : String) (v : α),
      List.lookup k l = some v → (k, v) ∈ l := by
  intro l
  induction l with
  | nil => intro k v h; simp [List.lookup] at h
  | cons e rest ih =>
      intro k v h
      obtain ⟨k', v'⟩ := e
      rw [List.lookup_cons] at h
      by_cases hk : k = k'
      · subst hk
        simp at h
        subst h
        exact List.mem_cons_self _ _
      · have hbeq : (k == k') = false := by simpa using hk
        rw [hbeq] at h
        exact List.mem_cons_of_mem _ (ih k v h)

theorem lookup_isSome_iff_mem_keys {α : Type} :
    ∀ (l : List (String × α)) (k : String),
      (List.lookup k l).isSome = true ↔ k ∈ l.map Prod.fst := by
  intro l
  induction l with
  | nil => intro k; simp [List.lookup]
  | cons e rest ih =>
      intro k
      obtain ⟨k', v'⟩ := e
      rw [List.lookup_cons]
      by_cases hk : k = k'
      · subst hk
        simp
      · have hbeq : (k == k') = false := by simpa using hk
        rw [hbeq]
        simp [hk, ih]

theorem lookup_setA_self {α : Type} (k : String) (v : α) :
    ∀ (l : List (String × α)), List.lookup k (setA k v l) = some v := by
  intro l
  induction l with
  | nil => simp [setA, List.lookup_cons]
  | cons e rest ih =>
      obtain ⟨k', v'⟩ := e
      by_cases h : k' = k
      · simp [setA, h, List.lookup_cons]
      · have hbeq : (k == k') = false := by simpa using fun he => h he.symm
        simp only [setA, h, if_false, ite_false, List.lookup_cons, hbeq]
        exact ih

theorem lookup_setA_other {α : Type} (k q : String) (v : α) (hq : q ≠ k) :
    ∀ (l : List (String × α)), List.lookup q (setA k v l) = List.lookup q l := by
  intro l
  induction l with
  | nil =>
      have hbeq : (q == k) = false := by simpa using hq
      simp [setA, List.lookup_cons, hbeq, List.lookup]
  | cons e rest ih =>
      obtain ⟨k', v'⟩ := e
      by_cases h : k' = k
      · subst h
        have hbeq : (q == k') = false := by simpa using hq
        simp [setA, List.lookup_cons, hbeq]
      · simp only [setA, h, if_false, ite_false, List.lookup_cons]
        cases hqk : q == k'
        · exact ih
        · rfl

theorem mem_setA {α : Type} (k : String) (v : α) :
    ∀ (l : List (String × α)) (e : String × α),
      e ∈ setA k v l → e = (k, v) ∨ e ∈ l := by
  intro l
  induction l with
  | nil => intro e he; simpa [setA] using he
  | cons x rest ih =>
      intro e he
      obtain ⟨k', v'⟩ := x
      by_cases h : k' = k
      · rw [setA, if_pos h] at he
        rcases List.mem_cons.mp he with h1 | h2
        · exact Or.inl h1
        · exact Or.inr (List.mem_cons_of_mem _ h2)
      · rw [setA, if_neg h] at he
        rcases List.mem_cons.mp he with h1 | h2
        · exact Or.inr (h1 ▸ List.mem_cons_self _ _)
        · rcases ih e h2 with h3 | h4
          · exact Or.inl h3
          · exact Or.inr (List.mem_cons_of_mem _ h4)

theorem setA_keys_of_mem {α : Type} (k : String) (v : α) :
    ∀ (l : List (String × α)), k ∈ l.map Prod.fst →
      (setA k v l).map Prod.fst = l.map Prod.fst := by
  intro l
  induction l with
  | nil => intro h; simp at h
  | cons e rest ih =>
      intro h
      obtain ⟨k', v'⟩ := e
      by_cases hk : k' = k
      · simp [setA, hk]
      · rw [setA, if_neg hk]
        simp only [List.map_cons]
        congr 1
        apply ih
        rcases List.mem_cons.mp h with h1 | h2
        · exact absurd h1.symm hk
        · exact h2

theorem setA_keys_of_not_mem {α : Type} (k : String) (v : α) :
    ∀ (l : List (String × α)), k ∉ l.map Prod.fst →
      (setA k v l).map Prod.fst = l.map Prod.fst ++ [k] := by
  intro l
  induction l with
  | nil => intro _; simp [setA]
  | cons e rest ih =>
      intro h
      obtain ⟨k', v'⟩ := e
      simp only [List.map_cons, List.mem_cons] at h
      push_neg at h
      rw [setA, if_neg (fun he => h.1 he.symm)]
      simp only [List.map_cons, List.cons_append]
      congr 1
      exact ih h.2

theorem takeWhile_all {α : Type} (p : α → Bool) :
    ∀ (l : List α), (∀ x ∈ l, p x = true) → l.takeWhile p = l := by
  intro l h
  exact List.takeWhile_eq_self_iff.mpr h

theorem get_content_of_all_le (h : FileHistory) (c : Nat)
    (hall : ∀ ch ∈ h.changes, ch.change_index ≤ c) :
    h.get_content c = h.changes.foldl replayStep [] := by
  unfold FileHistory.get_content
  rw [takeWhile_all _ _ (fun x hx => by simpa using hall x hx)]

theorem get_content_add_change_le (h : FileHistory) (c : Nat) (fc : FileChange)
    (hall : ∀ ch ∈ h.changes, ch.change_index ≤ c) (hfc : fc.change_index ≤ c) :
    (h.add_change fc).get_content c = replayStep (h.changes.foldl replayStep []) fc := by
  unfold FileHistory.get_content FileHistory.add_change
  rw [takeWhile_all _ _ ?hall]
  · rw [List.foldl_append]
    rfl
  · intro x hx
    rcases List.mem_append.mp hx with h1 | h2
    · simpa using hall x h1
    · simp only [List.mem_singleton] at h2
      subst h2
      simpa using hfc

theorem is_file_deleted_of_all_le (h : FileHistory) (c c' : Nat)
    (hall : ∀ ch ∈ h.changes, ch.change_index ≤ c) (hcc : c ≤ c') :
    h.is_file_deleted c' = h.is_file_deleted c := by
  unfold FileHistory.is_file_deleted
  rw [takeWhile_all _ _ (fun x hx => by
      simp only [decide_eq_true_eq]
      exact le_trans (hall x hx) hcc),
    takeWhile_all _ _ (fun x hx => by simpa using hall x hx)]

theorem is_file_deleted_add_deleted (h : FileHistory) (c : Nat)
    (hall : ∀ ch ∈ h.changes, ch.change_index ≤ c + 1) :
    (h.add_change ⟨c + 1, .Deleted⟩).is_file_deleted (c + 1) = true := by
  unfold FileHistory.is_file_deleted FileHistory.add_change
  rw [takeWhile_all _ _ ?hall]
  · rw [List.getLast?_append_cons]
    rfl
  · intro x hx
    rcases List.mem_append.mp hx with h1 | h2
    · simpa using hall x h1
    · simp only [List.mem_singleton] at h2
      subst h2
      simp

theorem monotone_add_change (h : FileHistory) (idx : Nat) (v : FileChangeVariant)
    (hm : MonotoneHistory h) (hle : ∀ ch ∈ h.changes, ch.change_index ≤ idx) :
    MonotoneHistory (h.add_change ⟨idx, v⟩) := by
  unfold MonotoneHistory FileHistory.add_change at *
  rw [List.pairwise_append]
  refine ⟨hm, by simp, ?_⟩
  intro a ha b hb
  simp only [List.mem_singleton] at hb
  subst hb
  exact hle a ha

theorem applyScript_insert_nil (content : List Byte) :
    applyScript [.Inserted 0 content] [] = content := by
  simp [applyScript, ContentChange.apply]

end Ka

namespace Ka

/-- If an Update pass records no affected file, it leaves the metadata store
untouched (the idempotence contract's first half). -/
theorem processEntries_aff_nil (w : List (String × List Byte)) (c : Nat) :
    ∀ (entries : List FileState) (hs hs' : List (String × FileHistory)),
      processEntries w c entries hs = some (hs', []) → hs' = hs := by
  intro entries
  induction entries with
  | nil =>
      intro hs hs' h
      unfold processEntries at h
      simp only [Option.some.injEq, Prod.mk.injEq] at h
      exact h.1.symm
  | cons st rest ih =>
      intro hs hs' h
      cases st with
      | Deleted p =>
          unfold processEntries at h
          cases hq : List.lookup p hs with
          | none => rw [hq] at h; exact absurd h (by simp)
          | some hh =>
              rw [hq] at h
              dsimp only at h
              by_cases hdel : hh.is_file_deleted c
              · rw [if_pos hdel] at h
                exact ih hs hs' h
              · rw [if_neg hdel] at h
                cases hrec : processEntries w c rest
                    (setA p (hh.add_change ⟨c + 1, .Deleted⟩) hs) with
                | none => rw [hrec] at h; exact absurd h (by simp)
                | some pr =>
                    obtain ⟨hs₁, aff⟩ := pr
                    rw [hrec] at h
                    exact absurd h (by simp)
      | Untracked p =>
          unfold processEntries at h
          cases hw : List.lookup p w with
          | none => rw [hw] at h; exact absurd h (by simp)
          | some content =>
              rw [hw] at h
              dsimp only at h
              cases hrec : processEntries w c rest
                  (setA p (FileHistory.add_change ⟨[]⟩
                    ⟨c + 1, .Updated [.Inserted 0 content]⟩) hs) with
              | none => rw [hrec] at h; exact absurd h (by simp)
              | some pr =>
                  obtain ⟨hs₁, aff⟩ := pr
                  rw [hrec] at h
                  exact absurd h (by simp)
      | Tracked p =>
          unfold processEntries at h
          cases hq : List.lookup p hs with
          | none => rw [hq] at h; exact absurd h (by simp)
          | some hh =>
              cases hw : List.lookup p w with
              | none => rw [hq, hw] at h; exact absurd h (by simp)
              | some nc =>
                  rw [hq, hw] at h
                  dsimp only at h
                  by_cases hcs : ContentChange.diff (hh.get_content c) nc = []
                  · rw [if_pos hcs] at h
                    exact ih hs hs' h
                  · rw [if_neg hcs] at h
                    cases hrec : processEntries w c rest
                        (setA p (hh.add_change
                          ⟨c + 1, .Updated (ContentChange.diff (hh.get_content c) nc)⟩) hs) with
                    | none => rw [hrec] at h; exact absurd h (by simp)
                    | some pr =>
                        obtain ⟨hs₁, aff⟩ := pr
                        rw [hrec] at h
                        exact absurd h (by simp)

/-- One Update pass preserves "every stored history is monotone and bounded
by `cursor + 1`": every appended FileChange carries index `cursor + 1`, at or
above every index already present. -/
theorem processEntries_store_bound (w : List (String × List Byte)) (c : Nat) :
    ∀ (entries : List FileState) (hs hs' : List (String × FileHistory))
      (aff : List String),
      (∀ e ∈ hs, MonotoneHistory e.2 ∧ ∀ ch ∈ e.2.changes, ch.change_index ≤ c + 1) →
      processEntries w c entries hs = some (hs', aff) →
      ∀ e ∈ hs', MonotoneHistory e.2 ∧ ∀ ch ∈ e.2.changes, ch.change_index ≤ c + 1 := by
  intro entries
  induction entries with
  | nil =>
      intro hs hs' aff hP h
      unfold processEntries at h
      simp only [Option.some.injEq, Prod.mk.injEq] at h
      rw [← h.1]
      exact hP
  | cons st rest ih =>
      intro hs hs' aff hP h
      have hsetA : ∀ (p : String) (hnew : FileHistory),
          (MonotoneHistory hnew ∧ ∀ ch ∈ hnew.changes, ch.change_index ≤ c + 1) →
          ∀ e ∈ setA p hnew hs,
            MonotoneHistory e.2 ∧ ∀ ch ∈ e.2.changes, ch.change_index ≤ c + 1 := by
        intro p hnew hnewP e he
        rcases mem_setA p hnew hs e he with h1 | h2
        · rw [h1]; exact hnewP
        · exact hP e h2
      have happ : ∀ (hh : FileHistory) (v : FileChangeVariant),
          (MonotoneHistory hh ∧ ∀ ch ∈ hh.changes, ch.change_index ≤ c + 1) →
          MonotoneHistory (hh.add_change ⟨c + 1, v⟩) ∧
            ∀ ch ∈ (hh.add_change ⟨c + 1, v⟩).changes, ch.change_index ≤ c + 1 := by
        intro hh v hhP
        constructor
        · exact monotone_add_change hh (c + 1) v hhP.1 hhP.2
        · intro ch hch
          unfold FileHistory.add_change at hch
          rcases List.mem_append.mp hch with h1 | h2
          · exact hhP.2 ch h1
          · simp only [List.mem_singleton] at h2
            subst h2
            exact le_refl _
      cases st with
      | Deleted p =>
          unfold processEntries at h
          cases hq : List.lookup p hs with
          | none => rw [hq] at h; exact absurd h (by simp)
          | some hh =>
              rw [hq] at h
              dsimp only at h
              by_cases hdel : hh.is_file_deleted c
              · rw [if_pos hdel] at h
                exact ih hs hs' aff hP h
              · rw [if_neg hdel] at h
                cases hrec : processEntries w c rest
                    (setA p (hh.add_change ⟨c + 1, .Deleted⟩) hs) with
                | none => rw [hrec] at h; exact absurd h (by simp)
                | some pr =>
                    obtain ⟨hs₁, aff₁⟩ := pr
                    rw [hrec] at h
                    simp only [Option.some.injEq, Prod.mk.injEq] at h
                    rw [← h.1]
                    refine ih _ hs₁ aff₁ ?_ hrec
                    exact hsetA p _ (happ hh _ (hP (p, hh) (mem_of_lookup hs p hh hq)))
      | Untracked p =>
          unfold processEntries at h
          cases hw : List.lookup p w with
          | none => rw [hw] at h; exact absurd h (by simp)
          | some content =>
              rw [hw] at h
              dsimp only at h
              cases hrec : processEntries w c rest
                  (setA p (FileHistory.add_change ⟨[]⟩
                    ⟨c + 1, .Updated [.Inserted 0 content]⟩) hs) with
              | none => rw [hrec] at h; exact absurd h (by simp)
              | some pr =>
                  obtain ⟨hs₁, aff₁⟩ := pr
                  rw [hrec] at h
                  simp only [Option.some.injEq, Prod.mk.injEq] at h
                  rw [← h.1]
                  refine ih _ hs₁ aff₁ ?_ hrec
                  refine hsetA p _ ⟨?_, ?_⟩
                  · unfold MonotoneHistory FileHistory.add_change
                    simp
                  · intro ch hch
                    unfold FileHistory.add_change at hch
                    simp only [List.nil_append, List.mem_singleton] at hch
                    subst hch
                    exact le_refl _
      | Tracked p =>
          unfold processEntries at h
          cases hq : List.lookup p hs with
          | none => rw [hq] at h; exact absurd h (by simp)
          | some hh =>
              cases hw : List.lookup p w with
              | none => rw [hq, hw] at h; exact absurd h (by simp)
              | some nc =>
                  rw [hq, hw] at h
                  dsimp only at h
                  by_cases hcs : ContentChange.diff (hh.get_content c) nc = []
                  · rw [if_pos hcs] at h
                    exact ih hs hs' aff hP h
                  · rw [if_neg hcs] at h
                    cases hrec : processEntries w c rest
                        (setA p (hh.add_change
                          ⟨c + 1, .Updated (ContentChange.diff (hh.get_content c) nc)⟩) hs) with
                    | none => rw [hrec] at h; exact absurd h (by simp)
                    | some pr =>
                        obtain ⟨hs₁, aff₁⟩ := pr
                        rw [hrec] at h
                        simp only [Option.some.injEq, Prod.mk.injEq] at h
                        rw [← h.1]
                        refine ih _ hs₁ aff₁ ?_ hrec
                        exact hsetA p _ (happ hh _ (hP (p, hh) (mem_of_lookup hs p hh hq)))

theorem update_store_inv (s : SysState) (t : Nat) (s' : SysState)
    (hmono : MonotoneStore s.histories) (hbound : BoundedStore s.repo.cursor s.histories)
    (hupd : update s t = some s') :
    MonotoneStore s'.histories ∧ BoundedStore s'.repo.cursor s'.histories := by
  unfold update at hupd
  cases hpe : processEntries s.working s.repo.cursor (enumerate s) s.histories with
  | none => rw [hpe] at hupd; exact absurd hupd (by simp)
  | some pr =>
      obtain ⟨hs', aff⟩ := pr
      rw [hpe] at hupd
      dsimp only at hupd
      have hP : ∀ e ∈ s.histories,
          MonotoneHistory e.2 ∧ ∀ ch ∈ e.2.changes, ch.change_index ≤ s.repo.cursor + 1 := by
        intro e he
        exact ⟨hmono e he, fun ch hch => le_trans (hbound e he ch hch) (Nat.le_succ _)⟩
      by_cases haff : aff = []
      · subst haff
        rw [if_pos rfl] at hupd
        injection hupd with hupd
        have hhs : hs' = s.histories := processEntries_aff_nil _ _ _ _ _ hpe
        rw [← hupd]
        subst hhs
        exact ⟨hmono, hbound⟩
      · rw [if_neg haff] at hupd
        injection hupd with hupd
        have hout := processEntries_store_bound s.working s.repo.cursor
          (enumerate s) s.histories hs' aff hP hpe
        rw [← hupd]
        constructor
        · intro e he
          exact (hout e he).1
        · intro e he
          exact (hout e he).2

theorem processShift_preserves (nc : Nat) :
    ∀ (ps : List String) (s s' : SysState), (processShift s nc ps).1 = some s' →
      s'.histories = s.histories ∧ s'.repo = s.repo := by
  intro ps
  induction ps with
  | nil =>
      intro s s' h
      simp only [processShift, Option.some.injEq] at h
      rw [← h]
      exact ⟨rfl, rfl⟩
  | cons q rest ih =>
      intro s s' h
      unfold processShift at h
      cases hq : List.lookup q s.histories with
      | none =>
          rw [hq] at h
          exact ih s s' h
      | some hh =>
          rw [hq] at h
          dsimp only at h
          by_cases hdel : hh.is_file_deleted nc
          · rw [if_pos hdel] at h
            cases hw : List.lookup q s.working with
            | some content =>
                rw [hw] at h
                dsimp only at h
                exact ih { s with working := removeA q s.working } s' h
            | none =>
                rw [hw] at h
                exact absurd h (by simp)
          · rw [if_neg hdel] at h
            dsimp only at h
            exact ih { s with working := setA q (hh.get_content nc) s.working } s' h

theorem shift_store_inv (s : SysState) (n : Nat) (s' : SysState)
    (hfwd : s.repo.cursor ≤ n)
    (hmono : MonotoneStore s.histories) (hbound : BoundedStore s.repo.cursor s.histories)
    (hsh : (shift s n).1 = some s') :
    MonotoneStore s'.histories ∧ BoundedStore s'.repo.cursor s'.histories := by
  unfold shift at hsh
  by_cases hle : max s.repo.cursor n ≤ s.repo.changes.length
  · rw [if_pos hle] at hsh
    obtain ⟨hhist, hrepo⟩ := processShift_preserves n _ _ _ hsh
    constructor
    · intro e he
      exact hmono e (by rw [← hhist]; exact he)
    · intro e he ch hch
      have hb := hbound e (by rw [← hhist]; exact he) ch hch
      rw [hrepo]
      exact le_trans hb hfwd
  · rw [if_neg hle] at hsh
    exact absurd hsh (by simp)

/-- Invariant of forward-only action sequences: every stored history is
monotone and bounded by the repository cursor. -/
theorem reachFwd_inv :
    ∀ (s : SysState), ReachFwd s →
      MonotoneStore s.histories ∧ BoundedStore s.repo.cursor s.histories := by
  intro s hr
  induction hr with
  | created w t s' h =>
      refine update_store_inv ⟨w, [], ⟨0, []⟩⟩ t s' ?_ ?_ h
      · intro e he; simp at he
      · intro e he; simp at he
  | recreated s t s' hr h ih =>
      refine update_store_inv ⟨s.working, [], ⟨0, []⟩⟩ t s' ?_ ?_ h
      · intro e he; simp at he
      · intro e he; simp at he
  | updated s t s' hr h ih => exact update_store_inv s t s' ih.1 ih.2 h
  | shifted s n s' hr hfwd h ih => exact shift_store_inv s n s' hfwd ih.1 ih.2 h
  | shiftAborted s n hr hfwd h ih =>
      refine ⟨ih.1, ?_⟩
      intro e he ch hch
      exact le_trans (ih.2 e he ch hch) hfwd
  | edited s w' hr ih => exact ih

/-- C3 amended: in every FileHistory of every repository state reachable by
Create, Update and Shift actions (with arbitrary working-tree edits between
actions) in which every Shift target is at or above the current cursor, the
`change_index` values are non-decreasing in log order (gaps allowed). -/
theorem ka_c3_amended (s : SysState) (hr : ReachFwd s) (p : String) (h : FileHistory)
    (hmem : (p, h) ∈ s.histories) : MonotoneHistory h :=
  (reachFwd_inv s hr).1 (p, h) hmem

/-- Witness for C3 amended: the history recorded by a fresh create. -/
theorem ka_c3_amended_witness :
    MonotoneHistory ⟨[⟨1, .Updated [.Inserted 0 [1]]⟩]⟩ :=
  ka_c3_amended exState1 (ReachFwd.created [("a", [1])] 0 exState1 (by decide)) "a"
    ⟨[⟨1, .Updated [.Inserted 0 [1]]⟩]⟩ (by decide)

end Ka

namespace Ka

theorem enumerate_working_mem (s : SysState) (e : String × List Byte) (he : e ∈ s.working) :
    (if (List.lookup e.1 s.histories).isSome then FileState.Tracked e.1
     else FileState.Untracked e.1) ∈ enumerate s := by
  unfold enumerate
  exact List.mem_append_left _ (List.mem_map_of_mem _ he)

theorem enumerate_untracked_key (s : SysState) (q : String)
    (h : FileState.Untracked q ∈ enumerate s) : q ∈ s.working.map Prod.fst := by
  unfold enumerate at h
  rcases List.mem_append.mp h with h1 | h2
  · obtain ⟨e, he, heq⟩ := List.mem_map.mp h1
    by_cases hsome : (List.lookup e.1 s.histories).isSome
    · rw [if_pos hsome] at heq
      exact absurd heq (by simp)
    · rw [if_neg hsome] at heq
      injection heq with heq
      rw [← heq]
      exact List.mem_map_of_mem _ he
  · obtain ⟨e, he, heq⟩ := List.mem_filterMap.mp h2
    by_cases hsome : (List.lookup e.1 s.working).isSome
    · rw [if_pos hsome] at heq
      exact absurd heq (by simp)
    · rw [if_neg hsome] at heq
      exact absurd heq (by simp)

theorem enumerate_deleted_mem_of (s : SysState) (st : FileState)
    (h : st ∈ s.histories.filterMap (fun e =>
      if (List.lookup e.1 s.working).isSome then none
      else some (FileState.Deleted e.1))) : st ∈ enumerate s := by
  unfold enumerate
  exact List.mem_append_right _ h

/-- Keys after an Update pass: the old keys in place, then the keys of newly
tracked (previously untracked) files, appended in processing order. -/
theorem processEntries_keys (w : List (String × List Byte)) (c : Nat) :
    ∀ (entries : List FileState) (hs hs' : List (String × FileHistory))
      (aff : List String),
      processEntries w c entries hs = some (hs', aff) →
      ∃ nk, hs'.map Prod.fst = hs.map Prod.fst ++ nk ∧
        ∀ q ∈ nk, FileState.Untracked q ∈ entries := by
  intro entries
  induction entries with
  | nil =>
      intro hs hs' aff h
      unfold processEntries at h
      simp only [Option.some.injEq, Prod.mk.injEq] at h
      exact ⟨[], by rw [← h.1]; simp, by simp⟩
  | cons st rest ih =>
      intro hs hs' aff h
      have hlift : ∀ (nk : List String), (∀ q ∈ nk, FileState.Untracked q ∈ rest) →
          ∀ q ∈ nk, FileState.Untracked q ∈ st :: rest :=
        fun nk hnk q hq => List.mem_cons_of_mem _ (hnk q hq)
      cases st with
      | Deleted p =>
          unfold processEntries at h
          cases hq : List.lookup p hs with
          | none => rw [hq] at h; exact absurd h (by simp)
          | some hh =>
              rw [hq] at h
              dsimp only at h
              by_cases hdel : hh.is_file_deleted c
              · rw [if_pos hdel] at h
                obtain ⟨nk, hk, hnk⟩ := ih hs hs' aff h
                exact ⟨nk, hk, hlift nk hnk⟩
              · rw [if_neg hdel] at h
                cases hrec : processEntries w c rest
                    (setA p (hh.add_change ⟨c + 1, .Deleted⟩) hs) with
                | none => rw [hrec] at h; exact absurd h (by simp)
                | some pr =>
                    obtain ⟨hs₁, aff₁⟩ := pr
                    rw [hrec] at h
                    simp only [Option.some.injEq, Prod.mk.injEq] at h
                    obtain ⟨nk, hk, hnk⟩ := ih _ hs₁ aff₁ hrec
                    refine ⟨nk, ?_, hlift nk hnk⟩
                    rw [← h.1, hk, setA_keys_of_mem]
                    exact (lookup_isSome_iff_mem_keys hs p).mp (by simp [hq])
      | Untracked p =>
          unfold processEntries at h
          cases hw : List.lookup p w with
          | none => rw [hw] at h; exact absurd h (by simp)
          | some content =>
              rw [hw] at h
              dsimp only at h
              cases hrec : processEntries w c rest
                  (setA p (FileHistory.add_change ⟨[]⟩
                    ⟨c + 1, .Updated [.Inserted 0 content]⟩) hs) with
              | none => rw [hrec] at h; exact absurd h (by simp)
              | some pr =>
                  obtain ⟨hs₁, aff₁⟩ := pr
                  rw [hrec] at h
                  simp only [Option.some.injEq, Prod.mk.injEq] at h
                  obtain ⟨nk, hk, hnk⟩ := ih _ hs₁ aff₁ hrec
                  by_cases hp : p ∈ hs.map Prod.fst
                  · refine ⟨nk, ?_, hlift nk hnk⟩
                    rw [← h.1, hk, setA_keys_of_mem _ _ _ hp]
                  · refine ⟨p :: nk, ?_, ?_⟩
                    · rw [← h.1, hk, setA_keys_of_not_mem _ _ _ hp]
                      simp
                    · intro q hq
                      rcases List.mem_cons.mp hq with h1 | h2
                      · rw [h1]; exact List.mem_cons_self _ _
                      · exact List.mem_cons_of_mem _ (hnk q h2)
      | Tracked p =>
          unfold processEntries at h
          cases hq : List.lookup p hs with
          | none => rw [hq] at h; exact absurd h (by simp)
          | some hh =>
              cases hw : List.lookup p w with
              | none => rw [hq, hw] at h; exact absurd h (by simp)
              | some nc =>
                  rw [hq, hw] at h
                  dsimp only at h
                  by_cases hcs : ContentChange.diff (hh.get_content c) nc = []
                  · rw [if_pos hcs] at h
                    obtain ⟨nk, hk, hnk⟩ := ih hs hs' aff h
                    exact ⟨nk, hk, hlift nk hnk⟩
                  · rw [if_neg hcs] at h
                    cases hrec : processEntries w c rest
                        (setA p (hh.add_change
                          ⟨c + 1, .Updated (ContentChange.diff (hh.get_content c) nc)⟩) hs) with
                    | none => rw [hrec] at h; exact absurd h (by simp)
                    | some pr =>
                        obtain ⟨hs₁, aff₁⟩ := pr
                        rw [hrec] at h
                        simp only [Option.some.injEq, Prod.mk.injEq] at h
                        obtain ⟨nk, hk, hnk⟩ := ih _ hs₁ aff₁ hrec
                        refine ⟨nk, ?_, hlift nk hnk⟩
                        rw [← h.1, hk, setA_keys_of_mem]
                        exact (lookup_isSome_iff_mem_keys hs p).mp (by simp [hq])

/-- A pass over entries that are all no-ops returns the store unchanged with
no affected files. -/
theorem processEntries_noop (w : List (String × List Byte)) (c : Nat) :
    ∀ (entries : List FileState) (hs : List (String × FileHistory)),
      (∀ st ∈ entries, NoopEntry w c hs st) →
      processEntries w c entries hs = some (hs, []) := by
  intro entries
  induction entries with
  | nil => intro hs _; rfl
  | cons st rest ih =>
      intro hs hnoop
      have hrest := fun st' hst' => hnoop st' (List.mem_cons_of_mem _ hst')
      cases st with
      | Tracked p =>
          obtain ⟨h, wc, hq, hw, hcs⟩ := hnoop (FileState.Tracked p) (List.mem_cons_self _ _)
          unfold processEntries
          rw [hq, hw]
          dsimp only
          rw [if_pos hcs]
          exact ih hs hrest
      | Untracked p =>
          exact absurd (hnoop (FileState.Untracked p) (List.mem_cons_self _ _)) id
      | Deleted p =>
          obtain ⟨h, hq, hdel⟩ := hnoop (FileState.Deleted p) (List.mem_cons_self _ _)
          unfold processEntries
          rw [hq]
          dsimp only
          rw [if_pos hdel]
          exact ih hs hrest

end Ka

namespace Ka

theorem EntryWF_store_congr (w : List (String × List Byte)) (c : Nat)
    (hs hs₁ : List (String × FileHistory)) (st : FileState)
    (hlk : List.lookup st.key hs₁ = List.lookup st.key hs) :
    EntryWF w c hs st → EntryWF w c hs₁ st := by
  cases st with
  | Tracked q =>
      rintro ⟨⟨h0, hq0, hb⟩, hw0⟩
      refine ⟨⟨h0, ?_, hb⟩, hw0⟩
      rw [show List.lookup q hs₁ = List.lookup q hs from hlk]
      exact hq0
  | Untracked q => exact id
  | Deleted q =>
      rintro ⟨h0, hq0, hb⟩
      refine ⟨h0, ?_, hb⟩
      rw [show List.lookup q hs₁ = List.lookup q hs from hlk]
      exact hq0

/-- Postcondition of one Update pass: afterwards every enumerated entry's
stored history reconstructs the working bytes (or certifies deletion) at
`cursor + 1`, and keys outside the enumerated entries are untouched. -/
theorem processEntries_post (w : List (String × List Byte)) (c : Nat) :
    ∀ (entries : List FileState) (hs hs' : List (String × FileHistory)) (aff : List String),
      (entries.map FileState.key).Nodup →
      (∀ st ∈ entries, EntryWF w c hs st) →
      processEntries w c entries hs = some (hs', aff) →
      (∀ st ∈ entries, PostEntry w c hs' st) ∧
      (∀ q, q ∉ entries.map FileState.key → List.lookup q hs' = List.lookup q hs) := by
  intro entries
  induction entries with
  | nil =>
      intro hs hs' aff _ _ h
      unfold processEntries at h
      simp only [Option.some.injEq, Prod.mk.injEq] at h
      constructor
      · intro st hst; simp at hst
      · intro q _
        rw [← h.1]
  | cons st rest ih =>
      intro hs hs' aff hnd hwf h
      have hndc : st.key ∉ rest.map FileState.key ∧ (rest.map FileState.key).Nodup := by
        rw [List.map_cons, List.nodup_cons] at hnd
        exact hnd
      obtain ⟨hp_not, hnd_rest⟩ := hndc
      have hwf_head := hwf st (List.mem_cons_self _ _)
      have hwf_rest := fun st' hst' => hwf st' (List.mem_cons_of_mem _ hst')
      have hkey_ne : ∀ st' ∈ rest, st'.key ≠ st.key := by
        intro st' hst' he
        exact hp_not (he ▸ List.mem_map_of_mem _ hst')
      cases st with
      | Tracked p =>
          obtain ⟨⟨h0, hq0, hall⟩, hw0⟩ := hwf_head
          unfold processEntries at h
          rw [hq0] at h
          cases hw : List.lookup p w with
          | none => rw [hw] at h; exact absurd h (by simp)
          | some nc =>
              rw [hw] at h
              dsimp only at h
              have hall1 : ∀ ch ∈ h0.changes, ch.change_index ≤ c + 1 :=
                fun ch hch => le_trans (hall ch hch) (Nat.le_succ _)
              by_cases hcs : ContentChange.diff (h0.get_content c) nc = []
              · rw [if_pos hcs] at h
                obtain ⟨hpostR, huntR⟩ := ih hs hs' aff hnd_rest hwf_rest h
                constructor
                · intro st' hst'
                  rcases List.mem_cons.mp hst' with h1 | h2
                  · subst h1
                    refine ⟨h0, nc, ?_, hw, ?_⟩
                    · rw [huntR p hp_not]
                      exact hq0
                    · have gc1 := get_content_of_all_le h0 (c + 1) hall1
                      have gc2 := get_content_of_all_le h0 c hall
                      have heq := (diff_eq_nil_iff _ _).mp hcs
                      rw [gc1, ← gc2, heq]
                  · exact hpostR st' h2
                · intro q hq
                  have : q ∉ rest.map FileState.key := by
                    intro hq2
                    exact hq (by rw [List.map_cons]; exact List.mem_cons_of_mem _ hq2)
                  exact huntR q this
              · rw [if_neg hcs] at h
                cases hrec : processEntries w c rest
                    (setA p (h0.add_change
                      ⟨c + 1, .Updated (ContentChange.diff (h0.get_content c) nc)⟩) hs) with
                | none => rw [hrec] at h; exact absurd h (by simp)
                | some pr =>
                    obtain ⟨hs₁', aff₁⟩ := pr
                    rw [hrec] at h
                    simp only [Option.some.injEq, Prod.mk.injEq] at h
                    obtain ⟨hh1, -⟩ := h
                    subst hh1
                    have hwf₁ : ∀ st' ∈ rest, EntryWF w c
                        (setA p (h0.add_change
                          ⟨c + 1, .Updated (ContentChange.diff (h0.get_content c) nc)⟩) hs) st' := by
                      intro st' hst'
                      refine EntryWF_store_congr w c hs _ st' ?_ (hwf_rest st' hst')
                      exact lookup_setA_other p st'.key _ (hkey_ne st' hst') hs
                    obtain ⟨hpostR, huntR⟩ := ih _ _ aff₁ hnd_rest hwf₁ hrec
                    constructor
                    · intro st' hst'
                      rcases List.mem_cons.mp hst' with h1 | h2
                      · subst h1
                        refine ⟨h0.add_change
                            ⟨c + 1, .Updated (ContentChange.diff (h0.get_content c) nc)⟩,
                          nc, ?_, hw, ?_⟩
                        · rw [huntR p hp_not]
                          exact lookup_setA_self p _ hs
                        · rw [get_content_add_change_le _ _ _ hall1 (le_refl _)]
                          have gc2 := get_content_of_all_le h0 c hall
                          show applyScript (ContentChange.diff (h0.get_content c) nc)
                              (h0.changes.foldl replayStep []) = nc
                          rw [← gc2]
                          exact diff_roundtrip _ nc
                      · exact hpostR st' h2
                    · intro q hq
                      have hq1 : q ∉ rest.map FileState.key := by
                        intro hq2
                        exact hq (by rw [List.map_cons]; exact List.mem_cons_of_mem _ hq2)
                      have hq2 : q ≠ p := by
                        intro he
                        exact hq (by rw [List.map_cons, he]; exact List.mem_cons_self _ _)
                      rw [huntR q hq1]
                      exact lookup_setA_other p q _ hq2 hs
      | Untracked p =>
          unfold processEntries at h
          cases hw : List.lookup p w with
          | none => rw [hw] at h; exact absurd h (by simp)
          | some content =>
              rw [hw] at h
              dsimp only at h
              cases hrec : processEntries w c rest
                  (setA p (FileHistory.add_change ⟨[]⟩
                    ⟨c + 1, .Updated [.Inserted 0 content]⟩) hs) with
              | none => rw [hrec] at h; exact absurd h (by simp)
              | some pr =>
                  obtain ⟨hs₁', aff₁⟩ := pr
                  rw [hrec] at h
                  simp only [Option.some.injEq, Prod.mk.injEq] at h
                  obtain ⟨hh1, -⟩ := h
                  subst hh1
                  have hwf₁ : ∀ st' ∈ rest, EntryWF w c
                      (setA p (FileHistory.add_change ⟨[]⟩
                        ⟨c + 1, .Updated [.Inserted 0 content]⟩) hs) st' := by
                    intro st' hst'
                    refine EntryWF_store_congr w c hs _ st' ?_ (hwf_rest st' hst')
                    exact lookup_setA_other p st'.key _ (hkey_ne st' hst') hs
                  obtain ⟨hpostR, huntR⟩ := ih _ _ aff₁ hnd_rest hwf₁ hrec
                  constructor
                  · intro st' hst'
                    rcases List.mem_cons.mp hst' with h1 | h2
                    · subst h1
                      refine ⟨FileHistory.add_change ⟨[]⟩
                          ⟨c + 1, .Updated [.Inserted 0 content]⟩, content, ?_, hw, ?_⟩
                      · rw [huntR p hp_not]
                        exact lookup_setA_self p _ hs
                      · rw [get_content_add_change_le _ _ _ (by simp) (le_refl _)]
                        show applyScript [.Inserted 0 content]
                            (List.foldl replayStep [] []) = content
                        simpa using applyScript_insert_nil content
                    · exact hpostR st' h2
                  · intro q hq
                    have hq1 : q ∉ rest.map FileState.key := by
                      intro hq2
                      exact hq (by rw [List.map_cons]; exact List.mem_cons_of_mem _ hq2)
                    have hq2 : q ≠ p := by
                      intro he
                      exact hq (by rw [List.map_cons, he]; exact List.mem_cons_self _ _)
                    rw [huntR q hq1]
                    exact lookup_setA_other p q _ hq2 hs
      | Deleted p =>
          obtain ⟨h0, hq0, hall⟩ := hwf_head
          unfold processEntries at h
          rw [hq0] at h
          dsimp only at h
          have hall1 : ∀ ch ∈ h0.changes, ch.change_index ≤ c + 1 :=
            fun ch hch => le_trans (hall ch hch) (Nat.le_succ _)
          by_cases hdel : h0.is_file_deleted c
          · rw [if_pos hdel] at h
            obtain ⟨hpostR, huntR⟩ := ih hs hs' aff hnd_rest hwf_rest h
            constructor
            · intro st' hst'
              rcases List.mem_cons.mp hst' with h1 | h2
              · subst h1
                refine ⟨h0, ?_, ?_⟩
                · rw [huntR p hp_not]
                  exact hq0
                · rw [is_file_deleted_of_all_le h0 c (c + 1) hall (Nat.le_succ _)]
                  exact hdel
              · exact hpostR st' h2
            · intro q hq
              have : q ∉ rest.map FileState.key := by
                intro hq2
                exact hq (by rw [List.map_cons]; exact List.mem_cons_of_mem _ hq2)
              exact huntR q this
          · rw [if_neg hdel] at h
            cases hrec : processEntries w c rest
                (setA p (h0.add_change ⟨c + 1, .Deleted⟩) hs) with
            | none => rw [hrec] at h; exact absurd h (by simp)
            | some pr =>
                obtain ⟨hs₁', aff₁⟩ := pr
                rw [hrec] at h
                simp only [Option.some.injEq, Prod.mk.injEq] at h
                obtain ⟨hh1, -⟩ := h
                subst hh1
                have hwf₁ : ∀ st' ∈ rest, EntryWF w c
                    (setA p (h0.add_change ⟨c + 1, .Deleted⟩) hs) st' := by
                  intro st' hst'
                  refine EntryWF_store_congr w c hs _ st' ?_ (hwf_rest st' hst')
                  exact lookup_setA_other p st'.key _ (hkey_ne st' hst') hs
                obtain ⟨hpostR, huntR⟩ := ih _ _ aff₁ hnd_rest hwf₁ hrec
                constructor
                · intro st' hst'
                  rcases List.mem_cons.mp hst' with h1 | h2
                  · subst h1
                    refine ⟨h0.add_change ⟨c + 1, .Deleted⟩, ?_, ?_⟩
                    · rw [huntR p hp_not]
                      exact lookup_setA_self p _ hs
                    · exact is_file_deleted_add_deleted h0 c hall1
                  · exact hpostR st' h2
                · intro q hq
                  have hq1 : q ∉ rest.map FileState.key := by
                    intro hq2
                    exact hq (by rw [List.map_cons]; exact List.mem_cons_of_mem _ hq2)
                  have hq2 : q ≠ p := by
                    intro he
                    exact hq (by rw [List.map_cons, he]; exact List.mem_cons_self _ _)
                  rw [huntR q hq1]
                  exact lookup_setA_other p q _ hq2 hs

end Ka

namespace Ka

theorem filterMap_deleted_keys (w : List (String × List Byte)) :
    ∀ (l : List (String × FileHistory)),
      (l.filterMap (fun e => if (List.lookup e.1 w).isSome then none
        else some (FileState.Deleted e.1))).map FileState.key =
      (l.map Prod.fst).filter (fun q => !(List.lookup q w).isSome) := by
  intro l
  induction l with
  | nil => rfl
  | cons e rest ih =>
      by_cases hsome : (List.lookup e.1 w).isSome
      · simp only [List.filterMap_cons, hsome, if_true, List.map_cons, List.filter_cons,
          Bool.not_true, ite_true, ite_false]
        exact ih
      · have hb : (List.lookup e.1 w).isSome = false := Bool.eq_false_iff.mpr hsome
        simp only [List.filterMap_cons, hb, Bool.false_eq_true, if_false, List.map_cons,
          List.filter_cons, Bool.not_false, ite_true, ite_false]
        rw [ih]
        rfl

theorem enumerate_keys (s : SysState) :
    (enumerate s).map FileState.key =
      s.working.map Prod.fst ++
        (s.histories.map Prod.fst).filter (fun q => !(List.lookup q s.working).isSome) := by
  unfold enumerate
  rw [List.map_append]
  congr 1
  · rw [List.map_map]
    apply List.map_congr_left
    intro e _
    by_cases hsome : (List.lookup e.1 s.histories).isSome <;>
      simp [hsome, FileState.key]
  · exact filterMap_deleted_keys s.working s.histories

theorem enumerate_keys_nodup (s : SysState)
    (hw : (s.working.map Prod.fst).Nodup) (hh : (s.histories.map Prod.fst).Nodup) :
    ((enumerate s).map FileState.key).Nodup := by
  rw [enumerate_keys]
  refine List.Nodup.append hw (hh.filter _) ?_
  rw [List.disjoint_left]
  intro q hq hq2
  have hmf := List.mem_filter.mp hq2
  have h2 : (List.lookup q s.working).isSome := (lookup_isSome_iff_mem_keys _ q).mpr hq
  rw [h2] at hmf
  simp at hmf

theorem enumerate_entryWF (s : SysState) (hbound : BoundedStore s.repo.cursor s.histories) :
    ∀ st ∈ enumerate s, EntryWF s.working s.repo.cursor s.histories st := by
  intro st hst
  unfold enumerate at hst
  rcases List.mem_append.mp hst with h1 | h2
  · obtain ⟨e, he, heq⟩ := List.mem_map.mp h1
    have hwk : (List.lookup e.1 s.working).isSome =  true :=
      (lookup_isSome_iff_mem_keys _ _).mpr (List.mem_map_of_mem _ he)
    by_cases hsome : (List.lookup e.1 s.histories).isSome
    · rw [if_pos hsome] at heq
      subst heq
      obtain ⟨h0, hq0⟩ := Option.isSome_iff_exists.mp hsome
      exact ⟨⟨h0, hq0, fun ch hch => hbound (e.1, h0) (mem_of_lookup _ _ _ hq0) ch hch⟩, hwk⟩
    · rw [if_neg hsome] at heq
      subst heq
      exact hwk
  · obtain ⟨e, he, heq⟩ := List.mem_filterMap.mp h2
    by_cases hsome : (List.lookup e.1 s.working).isSome
    · rw [if_pos hsome] at heq
      exact absurd heq (by simp)
    · rw [if_neg hsome] at heq
      injection heq with heq
      subst heq
      have hk : (List.lookup e.1 s.histories).isSome = true :=
        (lookup_isSome_iff_mem_keys _ _).mpr (List.mem_map_of_mem _ he)
      obtain ⟨h0, hq0⟩ := Option.isSome_iff_exists.mp hk
      exact ⟨h0, hq0, fun ch hch => hbound (e.1, h0) (mem_of_lookup _ _ _ hq0) ch hch⟩

/-- After an Update pass, enumeration sees the same working tree, every
working file now tracked, and the same deleted entries: the store's new keys
all belong to the working tree, so they contribute no `Deleted` states. -/
theorem enumerate_after_update (w : List (String × List Byte))
    (hs hs' : List (String × FileHistory)) (repo' : RepositoryHistory)
    (hTrk : ∀ e ∈ w, (List.lookup e.1 hs').isSome = true)
    (nk : List String) (hkeys : hs'.map Prod.fst = hs.map Prod.fst ++ nk)
    (hnk : ∀ q ∈ nk, q ∈ w.map Prod.fst) :
    enumerate ⟨w, hs', repo'⟩ =
      w.map (fun e => FileState.Tracked e.1) ++
        hs.filterMap (fun e => if (List.lookup e.1 w).isSome then none
          else some (FileState.Deleted e.1)) := by
  unfold enumerate
  congr 1
  · apply List.map_congr_left
    intro e he
    simp [hTrk e he]
  · have hcomp : ∀ (l : List (String × FileHistory)),
        l.filterMap (fun e => if (List.lookup e.1 w).isSome then none
          else some (FileState.Deleted e.1)) =
        (l.map Prod.fst).filterMap (fun q => if (List.lookup q w).isSome then none
          else some (FileState.Deleted q)) := by
      intro l
      rw [List.filterMap_map]
      rfl
    rw [hcomp hs', hcomp hs, hkeys, List.filterMap_append]
    have hnil : nk.filterMap (fun q => if (List.lookup q w).isSome then none
        else some (FileState.Deleted q)) = [] := by
      rw [List.filterMap_eq_nil_iff]
      intro q hq
      have := (lookup_isSome_iff_mem_keys w q).mpr (hnk q hq)
      simp [this]
    rw [hnil, List.append_nil]

/-- C5 amended.  First conjunct (the idempotence contract as implemented),
with no hypothesis on the state: an Update whose pass records no affected
file returns the repository byte-for-byte untouched, cursor included.
Second conjunct: provided every change index in every stored history is at
most the repository cursor (as holds in any state never shifted backwards)
and paths are distinct, running update twice with no intervening
working-tree change leaves every persisted resource byte-identical after
the second run. -/
theorem ka_c5_amended (s : SysState) (t t' : Nat) :
    (∀ hs', processEntries s.working s.repo.cursor (enumerate s) s.histories =
        some (hs', []) → update s t = some s) ∧
    ((s.working.map Prod.fst).Nodup → (s.histories.map Prod.fst).Nodup →
      BoundedStore s.repo.cursor s.histories →
      ∀ s₁, update s t = some s₁ → update s₁ t' = some s₁) := by
  constructor
  · intro hs' hpe
    unfold update
    rw [hpe]
    dsimp only
    rw [if_pos rfl]
    have hhs : hs' = s.histories := processEntries_aff_nil _ _ _ _ _ hpe
    subst hhs
    rfl
  · intro hwnd hhnd hbound s₁ h₁
    unfold update at h₁
    cases hpe : processEntries s.working s.repo.cursor (enumerate s) s.histories with
    | none => rw [hpe] at h₁; exact absurd h₁ (by simp)
    | some pr =>
        obtain ⟨hs', aff⟩ := pr
        rw [hpe] at h₁
        dsimp only at h₁
        by_cases haff : aff = []
        · subst haff
          rw [if_pos rfl] at h₁
          injection h₁ with h₁
          have hhs : hs' = s.histories := processEntries_aff_nil _ _ _ _ _ hpe
          subst hhs
          have hseq : s₁ = s := by rw [← h₁]
          subst hseq
          unfold update
          rw [hpe]
          dsimp only
          rw [if_pos rfl]
        · rw [if_neg haff] at h₁
          have hND := enumerate_keys_nodup s hwnd hhnd
          have hWF := enumerate_entryWF s hbound
          obtain ⟨hpost, huntouched⟩ := processEntries_post s.working s.repo.cursor
            (enumerate s) s.histories hs' aff hND hWF hpe
          obtain ⟨nk, hkeys, hnkent⟩ := processEntries_keys s.working s.repo.cursor
            (enumerate s) s.histories hs' aff hpe
          have hTrk : ∀ e ∈ s.working, (List.lookup e.1 hs').isSome = true := by
            intro e he
            have hmem := enumerate_working_mem s e he
            by_cases hsome : (List.lookup e.1 s.histories).isSome
            · rw [if_pos hsome] at hmem
              obtain ⟨h', wc, hlk, -, -⟩ := hpost _ hmem
              simp [hlk]
            · rw [if_neg hsome] at hmem
              obtain ⟨h', wc, hlk, -, -⟩ := hpost _ hmem
              simp [hlk]
          have hnkw : ∀ q ∈ nk, q ∈ s.working.map Prod.fst :=
            fun q hq => enumerate_untracked_key s q (hnkent q hq)
          have henum := enumerate_after_update s.working s.histories hs'
            ⟨s.repo.cursor + 1, s.repo.changes ++ [⟨aff, t⟩]⟩ hTrk nk hkeys hnkw
          injection h₁ with h₁
          subst h₁
          have hnoop : ∀ st ∈ enumerate (⟨s.working, hs',
              ⟨s.repo.cursor + 1, s.repo.changes ++ [⟨aff, t⟩]⟩⟩ : SysState),
              NoopEntry s.working (s.repo.cursor + 1) hs' st := by
            rw [henum]
            intro st hst
            rcases List.mem_append.mp hst with h1 | h2
            · obtain ⟨e, he, heq⟩ := List.mem_map.mp h1
              subst heq
              have hmem := enumerate_working_mem s e he
              by_cases hsome : (List.lookup e.1 s.histories).isSome
              · rw [if_pos hsome] at hmem
                obtain ⟨h', wc, hlk, hlw, hgc⟩ := hpost _ hmem
                exact ⟨h', wc, hlk, hlw, by rw [hgc]; exact diff_self wc⟩
              · rw [if_neg hsome] at hmem
                obtain ⟨h', wc, hlk, hlw, hgc⟩ := hpost _ hmem
                exact ⟨h', wc, hlk, hlw, by rw [hgc]; exact diff_self wc⟩
            · obtain ⟨e, he, heq⟩ := List.mem_filterMap.mp h2
              by_cases hsome : (List.lookup e.1 s.working).isSome
              · rw [if_pos hsome] at heq
                exact absurd heq (by simp)
              · rw [if_neg hsome] at heq
                injection heq with heq
                subst heq
                have hmem : FileState.Deleted e.1 ∈ enumerate s := by
                  refine enumerate_deleted_mem_of s _ ?_
                  rw [List.mem_filterMap]
                  exact ⟨e, he, by rw [if_neg hsome]⟩
                obtain ⟨h', hlk, hdel⟩ := hpost _ hmem
                exact ⟨h', hlk, hdel⟩
          have hpass := processEntries_noop s.working (s.repo.cursor + 1)
            (enumerate (⟨s.working, hs',
              ⟨s.repo.cursor + 1, s.repo.changes ++ [⟨aff, t⟩]⟩⟩ : SysState)) hs' hnoop
          unfold update
          dsimp only
          rw [hpass]
          dsimp only
          rw [if_pos rfl]

end Ka

namespace Ka

/-- Witness for C5 amended: after the update that records `[1,2]` for `a`, a
second update is a no-op returning the same persisted state. -/
theorem ka_c5_amended_witness :
    update exState3 99 = some exState3 :=
  (ka_c5_amended exState2 1 99).2 (by decide) (by decide)
    (by unfold BoundedStore; decide) exState3 (by decide)

end Ka
